import Mathlib

/-!
Verification of the index layer and query-planning core of the P1-BD2
restaurant database engine.

Each Python component relevant to the checked properties is shallowly
embedded as executable Lean definitions:

* `QE`    — result combination for compound predicates
            (`QueryEngine._evaluate_condition`, AND/OR branches).
* `EH`    — extendible hashing (`extendible_hashing.py`).
* `BPlus` — the disk B+Tree (`bmas/bplustree.py`).
* `Avl`   — the persistent AVL file (`avl/avl_file.py`).
* `Isam`  — the static multi-level ISAM file (`ISAM/ISAM.py`).
* `Mgr`   — the index coordinator (`core/index_manager.py`).

Machine integers are modelled as `Nat`/`Int` (no field in the checked
properties can overflow a Python int, which is unbounded).  Python dicts
are modelled as insertion-ordered association lists, and on-disk files of
fixed-size blocks as Lean lists indexed by block position.  Python's
stable `list.sort` is modelled by a stable insertion sort.
-/

-- ===================================================================
-- DEFINITIONS
-- ===================================================================

/-- Update the value stored at key `k` in place if present (keeping the
insertion position, as a Python dict does), else append the new binding. -/
def dictInsert {α : Type} (m : List (Nat × α)) (k : Nat) (v : α) : List (Nat × α) :=
  if m.any (fun p => p.1 == k) then m.map (fun p => if p.1 == k then (k, v) else p)
  else m ++ [(k, v)]

/-- Lookup in an insertion-ordered association list (Python `dict.get`). -/
def dictLookup {α : Type} (m : List (Nat × α)) (k : Nat) : Option α :=
  (m.find? (fun p => p.1 == k)).map (·.2)

/-- Delete every binding of key `k` (Python `del d[k]`; keys are unique in
all dictionaries built by the modelled code, so at most one is removed). -/
def dictErase {α : Type} (m : List (Nat × α)) (k : Nat) : List (Nat × α) :=
  m.filter (fun p => p.1 != k)

/-- Insert `x` into `l` before the first element not strictly below it.
Folding this over a list gives a stable sort, the behaviour of Python's
`list.sort(key=...)`. -/
def insadd {α : Type} (lt : α → α → Bool) (x : α) : List α → List α
  | [] => [x]
  | y :: ys => if lt y x then y :: insadd lt x ys else x :: y :: ys

/-- Stable sort by the strict comparison `lt` (model of `list.sort`). -/
def stableSort {α : Type} (lt : α → α → Bool) : List α → List α
  | [] => []
  | x :: xs => insadd lt x (stableSort lt xs)

-- ===================================================================
-- QE : compound-predicate result combination
-- (QueryEngine._evaluate_condition, ConditionComplexNode branch)
-- ===================================================================

namespace QE

/-- A result row.  `_evaluate_condition`'s helper `extract_id` reads the
`restaurant_id` out of a dict, tuple or object, returning `None` when the
row carries none; a row is therefore embedded as that optional id plus an
abstract payload distinguishing otherwise-equal rows. -/
structure Row where
  rid : Option Nat
  payload : Nat
deriving DecidableEq

/-- The dict/tuple/object-aware id extractor `extract_id`. -/
def extractId (r : Row) : Option Nat := r.rid

/-- The Python set `{extract_id(r) for r in rs if extract_id(r) is not None}`,
modelled as the deduplicated list of ids in first-appearance order. -/
def idSet (rs : List Row) : List Nat := (rs.filterMap extractId).dedup

/-- One step of building the `all_results` map: rows without an id are
skipped, others overwrite the binding at their id. -/
def idMapStep (m : List (Nat × Row)) (r : Row) : List (Nat × Row) :=
  match extractId r with
  | some i => dictInsert m i r
  | none => m

/-- The `all_results` map: `for r in left+right: all_results[extract_id(r)] = r`. -/
def idMap (rs : List Row) : List (Nat × Row) :=
  rs.foldl idMapStep []

/-- A well-formed id map: every stored row extracts to its key and keys
are unique. -/
def GoodMap (m : List (Nat × Row)) : Prop :=
  (∀ p ∈ m, extractId p.2 = some p.1) ∧ (m.map Prod.fst).Nodup

/-- The AND branch: intersect the id sets, then emit the representative row
for each surviving id from the combined id map. -/
def evalAnd (left right : List Row) : List Row :=
  let combined := (idSet left).filter (fun i => i ∈ idSet right)
  let m := idMap (left ++ right)
  combined.filterMap (fun i => dictLookup m i)

/-- The OR branch: all values of the combined id map, in insertion order. -/
def evalOr (left right : List Row) : List Row :=
  (idMap (left ++ right)).map Prod.snd

end QE

-- ===================================================================
-- EH : extendible hashing (extendible_hashing.py)
-- ===================================================================

namespace EH

/-- A bucket: its local depth and its item dict.  Keys are the restaurant
ids (stored by the source as their decimal strings, an injective image of
the integer ids); values are abstract payloads. -/
structure Bucket where
  local_depth : Nat
  items : List (Nat × Nat)
deriving DecidableEq

/-- The persistent state: global depth, the bucket-id allocator, the
directory (a vector of bucket ids) and the bucket store.  The source keeps
buckets in an append-only file addressed through `bucket_offsets` where the
latest write wins; that composite is exactly a finite map bucket-id → bucket. -/
structure State where
  global_depth : Nat
  next_bucket_id : Nat
  directory : List Nat
  store : List (Nat × Bucket)
deriving DecidableEq

/-- `ExtendibleHashing.__init__` on a fresh directory: depth 1, one root
bucket with id 1 shared by both directory entries. -/
def initState : State :=
  { global_depth := 1
  , next_bucket_id := 2
  , directory := [1, 1]
  , store := [(1, ⟨1, []⟩)] }

/-- `_read_bucket` (`None` models the source's `KeyError`, which cannot
fire on states reachable through the public operations). -/
def readBucket (st : State) (bid : Nat) : Option Bucket :=
  dictLookup st.store bid

/-- `_write_bucket`: append the record; the offset map now resolves the id
to the fresh copy, i.e. the map binding is replaced. -/
def writeBucket (st : State) (bid : Nat) (b : Bucket) : State :=
  { st with store := dictInsert st.store bid b }

/-- `_index`: `key_hash & ((1 << d) - 1)`, i.e. the low `d` bits. -/
def indexOf (h d : Nat) : Nat := h % 2 ^ d

/-- `_double_directory`: duplicate the entry vector and bump the depth. -/
def doubleDirectory (st : State) : State :=
  { st with directory := st.directory ++ st.directory
          , global_depth := st.global_depth + 1 }

/-- `_split_bucket`: double the directory when the overflowing bucket is at
maximal depth, allocate two buckets one level deeper, repoint every
directory entry of the old bucket by its discriminating bit and
redistribute the items by the same bit of their key hash. -/
def splitBucket (hf : Nat → Nat) (cap : Nat) (st : State) (idx : Nat) : State :=
  let old_id := st.directory.getD idx 0
  match readBucket st old_id with
  | none => st
  | some old_bucket =>
    let st1 := if old_bucket.local_depth = st.global_depth then doubleDirectory st else st
    let new_ld := old_bucket.local_depth + 1
    let b0_id := st1.next_bucket_id
    let b1_id := st1.next_bucket_id + 1
    let dir' := st1.directory.enum.map (fun p =>
      if p.2 = old_id then
        (if (p.1 >>> (new_ld - 1)) % 2 = 1 then b1_id else b0_id)
      else p.2)
    let b0 : Bucket := ⟨new_ld, old_bucket.items.filter
      (fun it => ((indexOf (hf it.1) new_ld) >>> (new_ld - 1)) % 2 ≠ 1)⟩
    let b1 : Bucket := ⟨new_ld, old_bucket.items.filter
      (fun it => ((indexOf (hf it.1) new_ld) >>> (new_ld - 1)) % 2 = 1)⟩
    let st2 := { st1 with next_bucket_id := st1.next_bucket_id + 2
                        , directory := dir' }
    writeBucket (writeBucket st2 b0_id b0) b1_id b1

/-- One pass of `add`'s retry loop.  Python loops until the insert lands;
the loop need not terminate (a pathological hash function can keep every
item in one bucket), so the model exposes the retry count as fuel — each
unrolling is exactly one loop iteration of the source. -/
def addLoop (hf : Nat → Nat) (cap key val h : Nat) : Nat → State → State
  | 0, st => st
  | fuel + 1, st =>
    let idx := indexOf h st.global_depth
    let bid := st.directory.getD idx 0
    match readBucket st bid with
    | none => st
    | some bucket =>
      if bucket.items.any (fun it => it.1 == key) then
        writeBucket st bid ⟨bucket.local_depth, dictInsert bucket.items key val⟩
      else if bucket.items.length < cap then
        writeBucket st bid ⟨bucket.local_depth, bucket.items ++ [(key, val)]⟩
      else
        addLoop hf cap key val h fuel (splitBucket hf cap st idx)

/-- `add(registro)`: hash the selected key and run the retry loop. -/
def add (hf : Nat → Nat) (cap key val fuel : Nat) (st : State) : State :=
  addLoop hf cap key val (hf key) fuel st

/-- `remove(key)`: load the bucket for the key's directory slot and delete
the binding when present. -/
def remove (hf : Nat → Nat) (key : Nat) (st : State) : State :=
  let idx := indexOf (hf key) st.global_depth
  let bid := st.directory.getD idx 0
  match readBucket st bid with
  | none => st
  | some bucket =>
    if bucket.items.any (fun it => it.1 == key) then
      writeBucket st bid ⟨bucket.local_depth, dictErase bucket.items key⟩
    else st

/-- `search(key)`: one directory probe, one bucket load, one dict lookup. -/
def search (hf : Nat → Nat) (st : State) (key : Nat) : Option Nat :=
  let idx := indexOf (hf key) st.global_depth
  match readBucket st (st.directory.getD idx 0) with
  | none => none
  | some bucket => dictLookup bucket.items key

/-- States reachable from the fresh index by `add` / `remove`. -/
inductive Reach (hf : Nat → Nat) (cap : Nat) : State → Prop
  | init : Reach hf cap initState
  | add (key val fuel : Nat) {st : State} :
      Reach hf cap st → Reach hf cap (add hf cap key val fuel st)
  | rem (key : Nat) {st : State} :
      Reach hf cap st → Reach hf cap (remove hf key st)

/-- The directory invariant of the claim: `|dir| = 2^global_depth` and
`global_depth ≥ 1`. -/
def DirInv (st : State) : Prop :=
  st.directory.length = 2 ^ st.global_depth ∧ 1 ≤ st.global_depth

end EH

-- ===================================================================
-- BPlus : the persistent B+Tree (bmas/bplustree.py)
-- ===================================================================

namespace BPlus

/-- `ORDER = 4`: maximum number of keys per node. -/
def ORDER : Nat := 4

/-- A B+Tree node.  A leaf holds its parallel `keys`/`children` arrays as
one list of `(key, value)` pairs; an internal node holds `len(keys)+1`
children, represented as the child `p0` plus the `(separator, child)`
pairs — exactly the pairing `_insert_recursive` maintains with
`keys.insert(i, split_key); children.insert(i+1, new_child)`.  The block
file stores each node at a unique block position referenced exactly once,
so the file contents form this tree; the `next_leaf` chain threads the
leaves in left-to-right order (each `_split_leaf` links the new right
sibling between the split leaf and its old successor). -/
inductive Tree where
  | leaf (entries : List (Nat × Nat))
  | node (first : Tree) (rest : List (Nat × Tree))

theorem one_le_sizeOf_list {α : Type} [SizeOf α] (l : List α) : 1 ≤ sizeOf l := by
  cases l with
  | nil => simp
  | cons a l => simp; omega

/-- Child selection: index `0` is `p0`, index `i ≥ 1` is `children[i]`,
i.e. the second component of the `(i-1)`-st separator pair. -/
def childAt (c0 : Tree) (rest : List (Nat × Tree)) (i : Nat) : Tree :=
  if i = 0 then c0 else (rest.getD (i - 1) (0, Tree.leaf [])).2

theorem two_le_sizeOf_tree (t : Tree) : 2 ≤ sizeOf t := by
  cases t with
  | leaf es =>
    have := one_le_sizeOf_list es
    simp only [Tree.leaf.sizeOf_spec]
    omega
  | node c0 rest =>
    have := one_le_sizeOf_list rest
    simp only [Tree.node.sizeOf_spec]
    omega

theorem sizeOf_childAt_lt (c0 : Tree) (rest : List (Nat × Tree)) (i : Nat) :
    sizeOf (childAt c0 rest i) < 1 + sizeOf c0 + sizeOf rest := by
  have hrest := one_le_sizeOf_list rest
  have hc0 := two_le_sizeOf_tree c0
  unfold childAt
  split
  · omega
  · rcases Nat.lt_or_ge (i - 1) rest.length with h | h
    · have hm : rest.getD (i - 1) (0, Tree.leaf []) ∈ rest := by
        rw [List.getD_eq_getElem rest (0, Tree.leaf []) h]
        exact List.getElem_mem h
      have h1 : sizeOf (rest.getD (i - 1) (0, Tree.leaf [])) < sizeOf rest :=
        List.sizeOf_lt_of_mem hm
      have h2 : sizeOf (rest.getD (i - 1) (0, Tree.leaf [])).2 <
          sizeOf (rest.getD (i - 1) (0, Tree.leaf [])) := by
        obtain ⟨a, b⟩ := rest.getD (i - 1) (0, Tree.leaf [])
        show sizeOf b < sizeOf ((a, b) : Nat × Tree)
        have : sizeOf ((a, b) : Nat × Tree) = 1 + sizeOf a + sizeOf b := rfl
        omega
      omega
    · rw [List.getD_eq_default rest (0, Tree.leaf []) h]
      show sizeOf (Tree.leaf []) < 1 + sizeOf c0 + sizeOf rest
      have : sizeOf (Tree.leaf ([] : List (Nat × Nat))) = 2 := rfl
      omega

theorem sizeOf_childAt_lt_node (c0 : Tree) (rest : List (Nat × Tree)) (i : Nat) :
    sizeOf (childAt c0 rest i) < sizeOf (Tree.node c0 rest) := by
  have := sizeOf_childAt_lt c0 rest i
  simp only [Tree.node.sizeOf_spec]
  omega

/-- The descent loop `while i < len(keys) and key >= keys[i]: i += 1`:
the number of leading separators that are `≤ key`. -/
def descIdx (keys : List Nat) (k : Nat) : Nat :=
  (keys.takeWhile (fun x => x ≤ k)).length

/-- `search`: descend right-biased (`key >= keys[i]` moves on), then probe
the leaf linearly for the first matching key. -/
def searchT : Tree → Nat → Option Nat
  | Tree.leaf es, k => (es.find? (fun p => p.1 == k)).map (·.2)
  | Tree.node c0 rest, k => searchT (childAt c0 rest (descIdx (rest.map Prod.fst) k)) k
termination_by t _ => sizeOf t
decreasing_by
  subst_vars
  exact sizeOf_childAt_lt_node _ _ _

/-- Replace the value at the first occurrence of key `k`
(`idx = keys.index(key); children[idx] = value`). -/
def setFirst (es : List (Nat × Nat)) (k v : Nat) : List (Nat × Nat) :=
  match es with
  | [] => []
  | p :: rest => if p.1 == k then (k, v) :: rest else p :: setFirst rest k v

/-- `_split_leaf`: split at `mid = len // 2`, the right half keeps the
tail, the separator promoted to the parent is the right half's first key.
(The source also links the new right leaf into the `next_leaf` chain right
after the split leaf, which in this representation is automatic.) -/
def splitLeafAt (es : List (Nat × Nat)) : Tree × Option (Nat × Tree) :=
  let mid := es.length / 2
  let right := es.drop mid
  (Tree.leaf (es.take mid), some ((right.headD (0, 0)).1, Tree.leaf right))

/-- Replace the second component of the `j`-th pair. -/
def setSnd (ps : List (Nat × Tree)) (j : Nat) (c : Tree) : List (Nat × Tree) :=
  match ps, j with
  | [], _ => []
  | p :: rest, 0 => (p.1, c) :: rest
  | p :: rest, j + 1 => p :: setSnd rest j c

/-- Write back the updated child at child index `i`. -/
def setChild (c0 : Tree) (rest : List (Nat × Tree)) (i : Nat) (c : Tree) :
    Tree × List (Nat × Tree) :=
  if i = 0 then (c, rest) else (c0, setSnd rest (i - 1) c)

/-- Python `list.insert(n, a)` (appends when `n ≥ len`). -/
def insIdx {α : Type} (n : Nat) (a : α) : List α → List α
  | [] => [a]
  | x :: xs =>
    match n with
    | 0 => a :: x :: xs
    | m + 1 => x :: insIdx m a xs

/-- `_split_internal`: `split_key = keys[mid]` is promoted (removed from
both halves); the left keeps `children[:mid+1]`, the right keeps
`children[mid+1:]`. -/
def splitInternal (c0 : Tree) (rest : List (Nat × Tree)) : Tree × Option (Nat × Tree) :=
  let mid := rest.length / 2
  let sk := (rest.getD mid (0, Tree.leaf [])).1
  let rc0 := (rest.getD mid (0, Tree.leaf [])).2
  (Tree.node c0 (rest.take mid), some (sk, Tree.node rc0 (rest.drop (mid + 1))))

/-- `_insert_recursive`.  In a leaf: update in place when the key exists,
else append, re-sort (`sorted(zip(keys, children))`; leaf keys are
pairwise distinct in every tree the code builds, so the tuple sort orders
by key) and split on overflow.  In an internal node: descend, write the
child back, and on a child split insert the promoted key/child pair at
positions `i`/`i+1`, splitting in turn on overflow.  Returns the updated
node and the optional `(split_key, new_right_sibling)`. -/
def insertRec : Tree → Nat → Nat → Tree × Option (Nat × Tree)
  | Tree.leaf es, k, v =>
    if es.any (fun p => p.1 == k) then (Tree.leaf (setFirst es k v), none)
    else
      let es2 := stableSort (fun p q => p.1 < q.1) (es ++ [(k, v)])
      if ORDER < es2.length then splitLeafAt es2 else (Tree.leaf es2, none)
  | Tree.node c0 rest, k, v =>
    let i := descIdx (rest.map Prod.fst) k
    let res := insertRec (childAt c0 rest i) k v
    match res.2 with
    | none =>
      let s := setChild c0 rest i res.1
      (Tree.node s.1 s.2, none)
    | some (sk, nc) =>
      let s := setChild c0 rest i res.1
      let rest2 := insIdx i (sk, nc) s.2
      if ORDER < rest2.length then splitInternal s.1 rest2
      else (Tree.node s.1 rest2, none)
termination_by t _ _ => sizeOf t
decreasing_by
  subst_vars
  exact sizeOf_childAt_lt_node _ _ _

/-- `insert(key, value)`: run the recursion from the root; if the root
split, the new root holds the promoted key over the two halves. -/
def insertT (t : Tree) (k v : Nat) : Tree :=
  let r := insertRec t k v
  match r.2 with
  | none => r.1
  | some (sk, nc) => Tree.node r.1 [(sk, nc)]

/-- The single-path value replacement `insert` performs when the key is
already present: same tree, only the addressed leaf's value changes. -/
def replaceAlong : Tree → Nat → Nat → Tree
  | Tree.leaf es, k, v => Tree.leaf (setFirst es k v)
  | Tree.node c0 rest, k, v =>
    let i := descIdx (rest.map Prod.fst) k
    let s := setChild c0 rest i (replaceAlong (childAt c0 rest i) k v)
    Tree.node s.1 s.2
termination_by t _ _ => sizeOf t
decreasing_by
  subst_vars
  exact sizeOf_childAt_lt_node _ _ _

mutual

/-- The leaves of the tree in `next_leaf` order (left to right). -/
def leavesOf : Tree → List (List (Nat × Nat))
  | Tree.leaf es => [es]
  | Tree.node c0 rest => leavesOf c0 ++ leavesOfL rest

/-- Leaves of a child list, left to right. -/
def leavesOfL : List (Nat × Tree) → List (List (Nat × Nat))
  | [] => []
  | (_, c) :: ps => leavesOf c ++ leavesOfL ps

end

mutual

/-- The tree erased to its key skeleton (values zeroed): node splits, key
layout and the root are all visible in it. -/
def shapeT : Tree → Tree
  | Tree.leaf es => Tree.leaf (es.map (fun p => (p.1, 0)))
  | Tree.node c0 rest => Tree.node (shapeT c0) (shapeL rest)

/-- Key skeletons of a child list. -/
def shapeL : List (Nat × Tree) → List (Nat × Tree)
  | [] => []
  | (k, c) :: ps => (k, shapeT c) :: shapeL ps

end

/-- All `(key, value)` pairs stored in the tree, in leaf-chain order. -/
def allEntries (t : Tree) : List (Nat × Nat) := (leavesOf t).flatten

/-- Number of leaves among the first `i` children. -/
def numLeavesUpto (c0 : Tree) (rest : List (Nat × Tree)) (i : Nat) : Nat :=
  match i with
  | 0 => 0
  | j + 1 => (leavesOf c0).length + (leavesOfL (rest.take j)).length

/-- Position (in leaf-chain order) of the leaf `range_search`'s descent
reaches for a given start key. -/
def descLeafPos : Tree → Nat → Nat
  | Tree.leaf _, _ => 0
  | Tree.node c0 rest, k =>
    let i := descIdx (rest.map Prod.fst) k
    numLeavesUpto c0 rest i + descLeafPos (childAt c0 rest i) k
termination_by t _ => sizeOf t
decreasing_by
  subst_vars
  exact sizeOf_childAt_lt_node _ _ _

/-- One leaf of `range_search`'s scan: collect keys in `[lo, hi]`, and on
the first key above `hi` return what was collected with the stop flag
(the source's early `return results`). -/
def scanLeaf (lo hi : Nat) : List (Nat × Nat) → List (Nat × Nat) × Bool
  | [] => ([], false)
  | p :: ps =>
    if lo ≤ p.1 ∧ p.1 ≤ hi then
      let r := scanLeaf lo hi ps
      (p :: r.1, r.2)
    else if hi < p.1 then ([], true)
    else scanLeaf lo hi ps

/-- Walk the leaf chain until the stop flag fires or the chain ends. -/
def scanChain (lo hi : Nat) : List (List (Nat × Nat)) → List (Nat × Nat)
  | [] => []
  | l :: ls =>
    let r := scanLeaf lo hi l
    if r.2 then r.1 else r.1 ++ scanChain lo hi ls

/-- `range_search(start_key, end_key)`: descend to the leaf that could
hold `start_key`, then iterate through `next_leaf`. -/
def rangeSearch (t : Tree) (lo hi : Nat) : List (Nat × Nat) :=
  scanChain lo hi ((leavesOf t).drop (descLeafPos t lo))

/-- Strictly increasing key list, as a boolean. -/
def chainLt : List Nat → Bool
  | [] => true
  | [_] => true
  | x :: y :: rest => decide (x < y) && chainLt (y :: rest)

/-- Lower-bound check (`none` is \(-\infty\)). -/
def inLoB (lo : Option Nat) (k : Nat) : Bool :=
  match lo with
  | none => true
  | some a => decide (a ≤ k)

/-- Upper-bound check (`none` is \(+\infty\)); intervals are
right-open, matching the right-biased descent (`key ≥ separator` goes
right, and a promoted separator is the first key of the right half). -/
def inHiB (hi : Option Nat) (k : Nat) : Bool :=
  match hi with
  | none => true
  | some b => decide (k < b)

/-- Upper bound of the child left of the given separator list. -/
def headKeyOr (rest : List (Nat × Tree)) (hi : Option Nat) : Option Nat :=
  match rest with
  | [] => hi
  | (k, _) :: _ => some k

mutual

/-- Well-formedness of a subtree within the key interval `[lo, hi)`:
leaves are strictly sorted and in bounds, each child of an internal node
is well-formed in the interval carved out by the neighbouring separators. -/
def wfT (lo hi : Option Nat) : Tree → Bool
  | Tree.leaf es =>
    chainLt (es.map Prod.fst) && es.all (fun p => inLoB lo p.1 && inHiB hi p.1)
  | Tree.node c0 rest => wfT lo (headKeyOr rest hi) c0 && wfL lo hi rest

/-- Well-formedness of a separator/child list: separators are monotone and
within bounds (a promoted separator is a key of its right subtree, hence
below the enclosing interval's upper bound), children sit in the separator
intervals. -/
def wfL (lo hi : Option Nat) : List (Nat × Tree) → Bool
  | [] => true
  | (k, c) :: ps =>
    inLoB lo k && inHiB hi k && wfT (some k) (headKeyOr ps hi) c && wfL (some k) hi ps

end

end BPlus

-- ===================================================================
-- Avl : the persistent AVL file (avl/avl_file.py)
-- ===================================================================

namespace Avl

/-- A payload record of the AVL's heap file
(`<i32 id, 50s name, 30s city, f32 lon, f32 lat, i32 avg_cost, f32 rating, i32 votes>`).
Text fields are abstracted to their normalised tokens and floating-point
fields to integers (no checked property depends on float arithmetic). -/
structure ARec where
  restaurant_id : Nat
  restaurant_name : Nat
  city : Nat
  longitude : Int
  latitude : Int
  average_cost_for_two : Int
  aggregate_rating : Int
  votes : Int
deriving DecidableEq

/-- The node file viewed as a tree: each node carries its id, stored
height (`int32`, `-1` denotes an empty link's height) and payload offset.
Node positions are allocated append-only and each position is linked from
exactly one parent (or the root header), so the file contents form this
tree. -/
inductive ATree where
  | nil
  | node (l : ATree) (id : Nat) (h : Int) (d : Nat) (r : ATree)
deriving DecidableEq

/-- `_height`: stored height, `-1` for an absent child. -/
def hgt : ATree → Int
  | ATree.nil => -1
  | ATree.node _ _ h _ _ => h

/-- `_update_height`: recompute the stored height from the children's
stored heights (the source never calls it on position `-1`). -/
def updH : ATree → ATree
  | ATree.nil => ATree.nil
  | ATree.node l i _ d r => ATree.node l i (max (hgt l) (hgt r) + 1) d r

/-- `_balance_factor` (read on a valid node). -/
def bf : ATree → Int
  | ATree.nil => 0
  | ATree.node l _ _ _ r => hgt l - hgt r

/-- `_rotate_right_at`: `x.left = y.right; y.right = x`, then update the
heights of `x` and `y` in that order.  The fall-through arm models a call
on a node without a left child, on which the source would fail reading
position `-1`; it is unreachable from the states the theorems quantify
over. -/
def rotR : ATree → ATree
  | ATree.node (ATree.node a y hy dy b) i h d r =>
    updH (ATree.node a y hy dy (updH (ATree.node b i h d r)))
  | t => t

/-- `_rotate_left_at` (mirror image of `rotR`). -/
def rotL : ATree → ATree
  | ATree.node l i h d (ATree.node a y hy dy b) =>
    updH (ATree.node (updH (ATree.node l i h d a)) y hy dy b)
  | t => t

/-- `_rebalance_at`: LL/LR when the balance factor exceeds `1` (double
rotation when the left child leans right), RR/RL symmetrically. -/
def rebal : ATree → ATree
  | ATree.nil => ATree.nil
  | ATree.node l i h d r =>
    let b := bf (ATree.node l i h d r)
    if b > 1 then
      if bf l < 0 then rotR (ATree.node (rotL l) i h d r)
      else rotR (ATree.node l i h d r)
    else if b < -1 then
      if bf r > 0 then rotL (ATree.node l i h d (rotR r))
      else rotL (ATree.node l i h d r)
    else ATree.node l i h d r

/-- `_insert_rec`: recursive BST insert on the id, updating the height
and rebalancing on the way back; a duplicate id returns the subtree
untouched. -/
def insRec : ATree → Nat → Nat → ATree
  | ATree.nil, nid, doff => ATree.node ATree.nil nid 0 doff ATree.nil
  | ATree.node l i h d r, nid, doff =>
    if nid < i then rebal (updH (ATree.node (insRec l nid doff) i h d r))
    else if i < nid then rebal (updH (ATree.node l i h d (insRec r nid doff)))
    else ATree.node l i h d r

/-- The persistent state: the node-file tree plus the payload heap
(`write_record` appends and returns the previous end offset, modelled as
the list index of the appended record). -/
structure AState where
  tree : ATree
  heap : List ARec
deriving DecidableEq

/-- `insert`: serialise the payload to the heap first, then link a fresh
node into the tree. -/
def insert (st : AState) (rec : ARec) : AState :=
  { tree := insRec st.tree rec.restaurant_id st.heap.length
  , heap := st.heap ++ [rec] }

/-- `_min_pos` followed by reading that node: id and payload offset of
the leftmost node. -/
def minNode : ATree → Nat × Nat
  | ATree.nil => (0, 0)
  | ATree.node ATree.nil i _ d _ => (i, d)
  | ATree.node (ATree.node a y hy dy b) _ _ _ _ => minNode (ATree.node a y hy dy b)

/-- `_remove_rec`: BST delete with in-order-successor substitution; the
one-child cases return the child directly (the source returns before its
height update), the two-child case copies the successor's id and payload
offset and deletes the successor from the right subtree. -/
def remRec : ATree → Nat → ATree
  | ATree.nil, _ => ATree.nil
  | ATree.node l i h d r, rid =>
    if rid < i then rebal (updH (ATree.node (remRec l rid) i h d r))
    else if i < rid then rebal (updH (ATree.node l i h d (remRec r rid)))
    else
      if l = ATree.nil then r
      else if r = ATree.nil then l
      else
        rebal (updH (ATree.node l (minNode r).1 h (minNode r).2 (remRec r (minNode r).1)))

/-- `remove(rid)`. -/
def remove (st : AState) (rid : Nat) : AState :=
  { st with tree := remRec st.tree rid }

/-- `search(rid)`: BST descent, then read the payload at the node's
offset. -/
def searchTree (heap : List ARec) : ATree → Nat → Option ARec
  | ATree.nil, _ => none
  | ATree.node l i _ d r, rid =>
    if rid = i then heap.get? d
    else if rid < i then searchTree heap l rid
    else searchTree heap r rid

/-- `search` on the full state. -/
def search (st : AState) (rid : Nat) : Option ARec :=
  searchTree st.heap st.tree rid

/-- `inorder_ids`. -/
def inorderIds : ATree → List Nat
  | ATree.nil => []
  | ATree.node l i _ _ r => inorderIds l ++ i :: inorderIds r

/-- True height of the stored tree (empty tree has height `-1`, a leaf
height `0`, matching the file format). -/
def realH : ATree → Int
  | ATree.nil => -1
  | ATree.node l _ _ _ r => max (realH l) (realH r) + 1

/-- Bound checks for the strict BST ordering (`none` is an open side). -/
def loOkB (lo : Option Nat) (i : Nat) : Bool :=
  match lo with
  | none => true
  | some a => decide (a < i)

/-- Upper bound check. -/
def hiOkB (hi : Option Nat) (i : Nat) : Bool :=
  match hi with
  | none => true
  | some b => decide (i < b)

/-- The AVL invariant within bounds: every stored height equals the true
height of its node, every node's children heights differ by at most one,
and ids form a strict BST. -/
def good (lo hi : Option Nat) : ATree → Bool
  | ATree.nil => true
  | ATree.node l i h d r =>
    decide (h = max (realH l) (realH r) + 1) &&
    decide ((realH l - realH r).natAbs ≤ 1) &&
    loOkB lo i && hiOkB hi i && good lo (some i) l && good (some i) hi r

/-- Per-node real-height balance alone (the claim's first conjunct). -/
def balB : ATree → Bool
  | ATree.nil => true
  | ATree.node l _ _ _ r =>
    decide ((realH l - realH r).natAbs ≤ 1) && balB l && balB r

/-- Every payload offset in the tree is inside the heap. -/
def offsB (n : Nat) : ATree → Bool
  | ATree.nil => true
  | ATree.node l _ _ d r => decide (d < n) && offsB n l && offsB n r

/-- BST membership along the search path. -/
def containsT : ATree → Nat → Bool
  | ATree.nil, _ => false
  | ATree.node l i _ _ r, rid =>
    if rid = i then true
    else if rid < i then containsT l rid
    else containsT r rid

/-- States reachable from a fresh AVL file (root `-1`, empty heap) by
`insert` / `remove`. -/
inductive ReachA : AState → Prop
  | init : ReachA ⟨ATree.nil, []⟩
  | ins (rec : ARec) {st : AState} : ReachA st → ReachA (insert st rec)
  | rem (rid : Nat) {st : AState} : ReachA st → ReachA (remove st rid)

end Avl

-- ===================================================================
-- Isam : classic ISAM file with overflow chains (ISAM/ISAM.py)
-- ===================================================================

namespace Isam

/-- `BLOCK_FACTOR`: records per data page. -/
def BLOCK_FACTOR : Nat := 8

/-- A data record, abstracted to its `make_key(name, city, restaurant_id)`
value (a `Nat` standing for the 122-byte key string, which is compared
lexicographically) and an opaque payload for the remaining fields. -/
structure IRec where
  key : Nat
  payload : Nat
deriving DecidableEq

/-- A data page: up to `BLOCK_FACTOR` records plus the overflow link
(`next_page == -1` is modelled as `none`; offsets are page positions). -/
structure IPage where
  records : List IRec
  next_page : Option Nat
deriving DecidableEq

/-- `read_page_at`, with pages addressed by position in the file. -/
def readPage (pages : List IPage) (off : Nat) : IPage :=
  pages.getD off ⟨[], none⟩

/-- `write_page_at`. -/
def writePage (pages : List IPage) (off : Nat) (pg : IPage) : List IPage :=
  pages.set off pg

/-- Comparison used by `records.sort(key=lambda r: r.key())`. -/
def recLt (a b : IRec) : Bool := a.key < b.key

/-- `records.sort(key=...)`: Python sorts stably. -/
def sortRecs (rs : List IRec) : List IRec := stableSort recLt rs

/-- `_chain_offsets`: walk the overflow chain from `start`, collecting the
visited page offsets.  The walk is fuelled (the source's `while` loop
terminates on every acyclic chain, and the callers pass enough fuel for
any chain inside the file). -/
def chainOffsets (pages : List IPage) : Nat → Nat → List Nat
  | 0, off => [off]
  | fuel + 1, off =>
    match (readPage pages off).next_page with
    | none => [off]
    | some nxt => off :: chainOffsets pages fuel nxt

/-- Step 1 of `rebuild_from_data`: the offsets reachable as some page's
`next_page` (the overflow set). -/
def overflowSet (pages : List IPage) : List Nat :=
  pages.filterMap (fun pg => pg.next_page)

/-- Step 2 of `rebuild_from_data`: pages that are not overflow targets. -/
def baseOffsets (pages : List IPage) : List Nat :=
  (List.range pages.length).filter (fun off => !((overflowSet pages).contains off))

/-- Steps 3-4 of `rebuild_from_data`: the `(first_key, page_off)` leaf
entries collected from non-empty base pages and sorted (stably) by key.
The remaining steps pack exactly these entries into fanout-63 leaf nodes
and build the upper levels from them, so the whole rebuilt multi-level
index is a deterministic function of this list and of the base pages'
first keys; two data files with equal entry lists yield equal indexes. -/
def rebuildEntries (pages : List IPage) : List (Nat × Nat) :=
  stableSort (fun a b => a.1 < b.1)
    ((baseOffsets pages).filterMap (fun off =>
      match (readPage pages off).records with
      | [] => none
      | r :: _ => some (r.key, off)))

/-- `bisect_right` on a sorted key list: the number of keys `≤ k`. -/
def bisectRight (keys : List Nat) (k : Nat) : Nat :=
  (keys.takeWhile (fun x => x ≤ k)).length

/-- `find_page_offset`, in the flattened view of the static index: every
node stores the first keys of its children in sorted order and descends
with `bisect_right`, which lands on the leaf entry selected here (the
last entry whose first key is `≤ k`, or the very first entry). -/
def findPageOffset (entries : List (Nat × Nat)) (k : Nat) : Option Nat :=
  match entries with
  | [] => none
  | e0 :: _ =>
    let i := bisectRight (entries.map Prod.fst) k
    if i = 0 then some e0.2 else some ((entries.getD (i - 1) e0).2)

/-- `ISAM.insert` (the data-file effect), for a file whose index is in
sync with the data (as `build` and `rebuild_from_data` leave it), so the
targeted base page is the one `find_page_offset` selects on the rebuilt
entries.  Mirrors the source: a base page with capacity takes the record
in sorted position (then only a leaf key of the index is patched); else
the record goes to the LAST page of the overflow chain if it has
capacity, else exactly one new overflow page is appended and linked from
that last page, and the index is rebuilt from the data. -/
def isamInsert (pages : List IPage) (rec : IRec) : List IPage :=
  match findPageOffset (rebuildEntries pages) rec.key with
  | none => [⟨[rec], none⟩]
  | some base_off =>
    let base_pg := readPage pages base_off
    if base_pg.records.length < BLOCK_FACTOR then
      writePage pages base_off ⟨sortRecs (base_pg.records ++ [rec]), base_pg.next_page⟩
    else
      let last_off := (chainOffsets pages pages.length base_off).getLastD base_off
      let last_pg := readPage pages last_off
      if last_pg.records.length < BLOCK_FACTOR then
        writePage pages last_off ⟨sortRecs (last_pg.records ++ [rec]), last_pg.next_page⟩
      else
        writePage (pages ++ [⟨[rec], none⟩]) last_off ⟨last_pg.records, some pages.length⟩

/-- A data file holding one full base page (keys 10..80), a full first
overflow page (keys 81..87, 7 records after a deletion) and a second
overflow page with one record; the chain is 0 → 1 → 2. -/
def chainPages : List IPage :=
  [ ⟨[⟨10, 0⟩, ⟨20, 0⟩, ⟨30, 0⟩, ⟨40, 0⟩, ⟨50, 0⟩, ⟨60, 0⟩, ⟨70, 0⟩, ⟨80, 0⟩], some 1⟩
  , ⟨[⟨81, 0⟩, ⟨82, 0⟩, ⟨83, 0⟩, ⟨84, 0⟩, ⟨85, 0⟩, ⟨86, 0⟩, ⟨87, 0⟩], some 2⟩
  , ⟨[⟨100, 0⟩], none⟩ ]

end Isam

-- ===================================================================
-- Mgr : the IndexManager over the five index structures
-- (core/index_manager.py)
-- ===================================================================

namespace Mgr

/-- Width of one packed field of the ISAM key: `make_key` concatenates the
padded name, city and id fields, so the 122-byte key compares like the
lexicographic triple; with every token below `KW` the packing below is
order-preserving and the fields are recoverable. -/
def KW : Nat := 2 ^ 64

/-- `make_key(name, city, restaurant_id)` on tokenised fields. -/
def makeKey (name city rid : Nat) : Nat := (name * KW + city) * KW + rid

/-- The name field packed into an ISAM key. -/
def keyName (k : Nat) : Nat := k / (KW * KW)

/-- A point stored by `RTreePoints` (`PointRec`), with its payload
abstracted to the `Restaurant_ID` the manager stores in it. -/
structure RRow where
  pid : Nat
  rid : Nat
  lon : Int
  lat : Int
deriving DecidableEq

/-- The R-tree state: the `_rows` table in pid order plus `_next_id`. -/
structure RState where
  rows : List RRow
  next_id : Nat
deriving DecidableEq

/-- `RTreePoints.add_point`: rows whose payload carries the same
`Restaurant_ID` are removed, then the point is stored under a fresh pid. -/
def addPoint (st : RState) (rid : Nat) (lon lat : Int) : RState :=
  { rows := (st.rows.filter (fun r => r.rid != rid)) ++ [⟨st.next_id, rid, lon, lat⟩]
  , next_id := st.next_id + 1 }

/-- A normalised input record of `IndexManager.insert_full` (text fields
tokenised, floats as integers). -/
structure MRec where
  restaurant_id : Nat
  name : Nat
  city : Nat
  longitude : Int
  latitude : Int
  avg_cost_for_two : Int
  aggregate_rating : Int
  votes : Int
deriving DecidableEq

/-- The manager's five index structures. -/
structure MState where
  bpt : BPlus.Tree
  hash : EH.State
  avl : Avl.AState
  isam : List Isam.IPage
  rtree : RState

/-- `_id_exists`: probe the B+Tree, then the extendible hash, then the
AVL (each probe is wrapped in `try/except` in the source; the modelled
searches are total, so no probe raises). -/
def idExists (hf : Nat → Nat) (st : MState) (rid : Nat) : Bool :=
  if (BPlus.searchT st.bpt rid).isSome then true
  else if (EH.search hf st.hash rid).isSome then true
  else if (Avl.search st.avl rid).isSome then true
  else false

/-- `IndexManager.insert`, success path: insert into ISAM, hash, R-tree,
AVL and B+Tree in the source's order (`cap` and `fuel` are the hash's
bucket capacity and split-retry bound). -/
def insertAll (hf : Nat → Nat) (cap fuel : Nat) (st : MState) (rec : MRec) : MState :=
  { bpt := BPlus.insertT st.bpt rec.restaurant_id rec.name
  , hash := EH.add hf cap rec.restaurant_id rec.name fuel st.hash
  , avl := Avl.insert st.avl ⟨rec.restaurant_id, rec.name, rec.city, rec.longitude,
      rec.latitude, rec.avg_cost_for_two, rec.aggregate_rating, rec.votes⟩
  , isam := Isam.isamInsert st.isam ⟨makeKey rec.name rec.city rec.restaurant_id,
      rec.restaurant_id⟩
  , rtree := addPoint st.rtree rec.restaurant_id rec.longitude rec.latitude }

/-- Outcome of `insert_full` (the source prints and returns `None`; the
three exits are the duplicate rejection, an index failure, and success). -/
inductive InsertOutcome where
  | DuplicateId
  | Failed
  | Ok
deriving DecidableEq

/-- `IndexManager.insert`: re-checks `_id_exists`, then inserts into all
structures. -/
def insertIdx (hf : Nat → Nat) (cap fuel : Nat) (st : MState) (rec : MRec) :
    Bool × MState :=
  if idExists hf st rec.restaurant_id then (false, st)
  else (true, insertAll hf cap fuel st rec)

/-- `IndexManager.insert_full`: normalise, check `_id_exists`, and only
then mutate (the CSV append is outside the modelled index state). -/
def insert_full (hf : Nat → Nat) (cap fuel : Nat) (st : MState) (rec : MRec) :
    InsertOutcome × MState :=
  if idExists hf st rec.restaurant_id then (InsertOutcome.DuplicateId, st)
  else
    match insertIdx hf cap fuel st rec with
    | (false, st2) => (InsertOutcome.Failed, st2)
    | (true, st2) => (InsertOutcome.Ok, st2)

/-- One result row of a manager search, tagged by the index it came from
(rows of the searches kept abstract are injected through `row`). -/
inductive Hit where
  | isamRec (r : Isam.IRec)
  | avlRec (r : Avl.ARec)
  | bptPair (k v : Nat)
  | hashVal (v : Nat)
  | rrow (r : RRow)
  | row (n : Nat)
deriving DecidableEq

/-- `search_by_id`: AVL, then B+Tree, then hash; first hit wins. -/
def searchById (hf : Nat → Nat) (st : MState) (rid : Nat) : List Hit :=
  match Avl.search st.avl rid with
  | some r => [Hit.avlRec r]
  | none =>
    match BPlus.searchT st.bpt rid with
    | some v => [Hit.bptPair rid v]
    | none =>
      match EH.search hf st.hash rid with
      | some h => [Hit.hashVal h]
      | none => []

/-- `search_by_name` with an empty city: scan every ISAM data page and
keep the records whose name token matches. -/
def searchByName (st : MState) (name : Nat) : List Hit :=
  (st.isam.flatMap (fun pg => pg.records.filter
    (fun r => keyName r.key == name))).map Hit.isamRec

/-- `search_range_id`: delegate to the B+Tree range search. -/
def searchRangeId (st : MState) (lo hi : Nat) : List (Nat × Nat) :=
  BPlus.rangeSearch st.bpt lo hi

/-- `search_near`: `rtree.range_search_km` reads only the stored rows;
its floating-point geometry is kept abstract as the parameter `near`. -/
def searchNear (near : List RRow → Int → Int → Int → List Hit)
    (st : MState) (lon lat rad : Int) : List Hit :=
  near st.rtree.rows lon lat rad

/-- A leaf predicate as `force_search` receives it: the attribute (the
source lowercases it), the operator, the value both as a number (`none`
when `int(val)`/`float(val)` would raise) and as the raw string, and the
optional spatial point and radius. -/
structure Cond where
  attr : String
  operator : String
  value : Option Int
  valueStr : String
  point : Option (Int × Int)
  radius : Option Int

/-- The envelope `force_search` returns (the human-readable message is
not modelled). -/
structure Envelope where
  status : String
  index : String
  results : List Hit

def textual_fields : List String := ["name", "city"]

def numeric_fields : List String := ["rating", "aggregate_rating", "votes", "average_cost_for_two"]

def spatial_fields : List String := ["coords", "longitude", "latitude"]

def id_fields : List String := ["id", "restaurant_id"]

/-- Helper for the substring test: does `sub` occur in the char list? -/
def containsSubL (sub : List Char) : List Char → Bool
  | [] => sub.isEmpty
  | c :: cs => sub.isPrefixOf (c :: cs) || containsSubL sub cs

/-- Python's substring test `sub in s`. -/
def containsSub (s sub : String) : Bool := containsSubL sub.toList s.toList

/-- `IndexManager.force_search`: the four compatibility validations in
source order, then the per-index dispatch.  `cmp` abstracts
`search_comparison` (AVL, float arithmetic), `byName` abstracts
`search_by_name` on raw strings, and `near` abstracts
`range_search_km`; the hash and B+Tree branches run on the modelled
state.  A branch whose `int(val)`/`float(val)` conversion raises ends in
the source's `except` handler, which returns a `status=error` envelope. -/
def force_search (hf : Nat → Nat)
    (cmp : String → String → Int → List Hit)
    (byName : String → String → List Hit)
    (near : Int → Int → Int → List Hit)
    (st : MState) (forced : String) (cond : Cond) : Envelope :=
  let attr := cond.attr
  if forced = "AVL" && !(numeric_fields.contains attr) then
    ⟨"error", forced, []⟩
  else if forced = "ISAM" && !(textual_fields.contains attr) then
    ⟨"error", forced, []⟩
  else if forced = "HASH" && !(id_fields.any (fun f => containsSub attr f)) then
    ⟨"error", forced, []⟩
  else if forced = "RTREE" && !(spatial_fields.contains attr) then
    ⟨"error", forced, []⟩
  else if forced = "ISAM" then
    ⟨"success", forced, byName (if attr = "name" then cond.valueStr else "")
      (if attr = "city" then cond.valueStr else "")⟩
  else if forced = "AVL" then
    match cond.value with
    | none => ⟨"error", forced, []⟩
    | some v => ⟨"success", forced, cmp attr cond.operator v⟩
  else if forced = "HASH" then
    match cond.value with
    | none => ⟨"error", forced, []⟩
    | some v =>
      match EH.search hf st.hash v.toNat with
      | some h =>
        ⟨"success", forced,
          if (searchById hf st v.toNat).isEmpty then [Hit.hashVal h]
          else searchById hf st v.toNat⟩
      | none => ⟨"success", forced, []⟩
  else if forced = "RTREE" then
    match cond.point, cond.radius with
    | some (x, y), some rad => ⟨"success", forced, near x y rad⟩
    | _, _ => ⟨"error", forced, []⟩
  else if forced = "BTREE" then
    match cond.value with
    | none => ⟨"error", forced, []⟩
    | some v =>
      match BPlus.searchT st.bpt v.toNat with
      | none => ⟨"success", forced, []⟩
      | some value =>
        ⟨"success", forced,
          if (searchById hf st v.toNat).isEmpty
          then [Hit.bptPair v.toNat value]
          else searchById hf st v.toNat⟩
  else ⟨"warning", forced, []⟩

/-- A manager state with empty indexes (fresh files). -/
def emptySt : MState :=
  ⟨BPlus.Tree.leaf [], EH.initState, ⟨Avl.ATree.nil, []⟩, [], ⟨[], 0⟩⟩

end Mgr

-- ===================================================================
-- THEOREMS
-- ===================================================================

theorem dictInsert_keys {α : Type} (m : List (Nat × α)) (k : Nat) (v : α) :
    (dictInsert m k v).map Prod.fst =
      if m.any (fun p => p.1 == k) then m.map Prod.fst else m.map Prod.fst ++ [k] := by
  unfold dictInsert
  split
  · simp only [List.map_map]
    apply List.map_congr_left
    intro p _
    by_cases h : p.1 = k <;> simp [h]
  · simp

theorem dictInsert_any_iff {α : Type} (m : List (Nat × α)) (k : Nat) :
    (m.any (fun p => p.1 == k)) = true ↔ k ∈ m.map Prod.fst := by
  rw [List.any_eq_true]
  constructor
  · rintro ⟨p, hp, he⟩
    exact List.mem_map.mpr ⟨p, hp, by simpa using he⟩
  · intro h
    obtain ⟨p, hp, he⟩ := List.mem_map.mp h
    exact ⟨p, hp, by simpa using he⟩

theorem mem_dictInsert_keys {α : Type} (m : List (Nat × α)) (k : Nat) (v : α) (i : Nat) :
    i ∈ (dictInsert m k v).map Prod.fst ↔ i ∈ m.map Prod.fst ∨ i = k := by
  rw [dictInsert_keys]
  split
  · rename_i h
    rw [dictInsert_any_iff] at h
    constructor
    · exact Or.inl
    · rintro (hi | rfl)
      · exact hi
      · exact h
  · simp

theorem dictInsert_keys_nodup {α : Type} {m : List (Nat × α)} (k : Nat) (v : α)
    (h : (m.map Prod.fst).Nodup) : ((dictInsert m k v).map Prod.fst).Nodup := by
  rw [dictInsert_keys]
  split
  · exact h
  · rename_i ha
    have hk : k ∉ m.map Prod.fst := by
      intro hmem
      exact ha ((dictInsert_any_iff m k).mpr hmem)
    simp [List.nodup_append, h, hk]

namespace QE

theorem dictInsert_good {m : List (Nat × Row)} {k : Nat} {v : Row}
    (h : GoodMap m) (hv : extractId v = some k) : GoodMap (dictInsert m k v) := by
  obtain ⟨h1, h2⟩ := h
  refine ⟨?_, dictInsert_keys_nodup k v h2⟩
  intro p hp
  unfold dictInsert at hp
  split at hp
  · rw [List.mem_map] at hp
    obtain ⟨q, hq, hqe⟩ := hp
    by_cases hqk : (q.1 == k) = true
    · rw [if_pos hqk] at hqe
      rw [← hqe]; exact hv
    · rw [if_neg hqk] at hqe
      rw [← hqe]; exact h1 q hq
  · rw [List.mem_append] at hp
    rcases hp with hp | hp
    · exact h1 p hp
    · simp only [List.mem_singleton] at hp
      rw [hp]; exact hv

theorem foldl_idMapStep (rs : List Row) (m : List (Nat × Row)) (h : GoodMap m) :
    GoodMap (rs.foldl idMapStep m) ∧
      ∀ i, (i ∈ (rs.foldl idMapStep m).map Prod.fst ↔
        i ∈ m.map Prod.fst ∨ i ∈ rs.filterMap extractId) := by
  induction rs generalizing m with
  | nil => simpa using h
  | cons r rs ih =>
    have hstep : GoodMap (idMapStep m r) ∧
        ∀ i, (i ∈ (idMapStep m r).map Prod.fst ↔
          i ∈ m.map Prod.fst ∨ extractId r = some i) := by
      unfold idMapStep
      cases he : extractId r with
      | none => simp [h]
      | some j =>
        refine ⟨dictInsert_good h he, ?_⟩
        intro i
        rw [mem_dictInsert_keys]
        constructor
        · rintro (hi | rfl)
          · exact Or.inl hi
          · exact Or.inr rfl
        · rintro (hi | hj)
          · exact Or.inl hi
          · injection hj with hj; exact Or.inr hj.symm
    obtain ⟨hg, hmem⟩ := hstep
    obtain ⟨ihg, ihmem⟩ := ih (idMapStep m r) hg
    refine ⟨ihg, ?_⟩
    intro i
    rw [List.foldl_cons] at *
    rw [ihmem i, hmem i, List.filterMap_cons]
    cases he : extractId r with
    | none => simp [he]
    | some j =>
      simp only [he, List.mem_cons]
      constructor
      · rintro ((hi | hj) | hi)
        · exact Or.inl hi
        · injection hj with hj; exact Or.inr (Or.inl hj.symm)
        · exact Or.inr (Or.inr hi)
      · rintro (hi | (rfl | hi))
        · exact Or.inl (Or.inl hi)
        · exact Or.inl (Or.inr rfl)
        · exact Or.inr hi

theorem idMap_good (rs : List Row) : GoodMap (idMap rs) :=
  (foldl_idMapStep rs [] ⟨by simp, by simp⟩).1

theorem idMap_keys_iff (rs : List Row) (i : Nat) :
    i ∈ (idMap rs).map Prod.fst ↔ i ∈ rs.filterMap extractId := by
  have := (foldl_idMapStep rs [] ⟨by simp, by simp⟩).2 i
  simpa [idMap] using this

theorem dictLookup_mem {α : Type} {m : List (Nat × α)} {k : Nat}
    (h : k ∈ m.map Prod.fst) :
    ∃ p, p ∈ m ∧ p.1 = k ∧ dictLookup m k = some p.2 := by
  have hs : (m.find? (fun p => p.1 == k)).isSome := by
    rw [List.find?_isSome]
    rw [List.mem_map] at h
    obtain ⟨p, hp, he⟩ := h
    exact ⟨p, hp, by simpa using he⟩
  obtain ⟨p, hfind⟩ := Option.isSome_iff_exists.mp hs
  refine ⟨p, List.mem_of_find?_eq_some hfind, ?_, ?_⟩
  · have := List.find?_some hfind
    simpa using this
  · simp [dictLookup, hfind]

theorem dictLookup_none {α : Type} {m : List (Nat × α)} {k : Nat}
    (h : k ∉ m.map Prod.fst) : dictLookup m k = none := by
  unfold dictLookup
  rw [List.find?_eq_none.mpr]
  · rfl
  · intro p hp
    simp only [beq_iff_eq]
    intro hk
    exact h (List.mem_map.mpr ⟨p, hp, hk⟩)

theorem filterMap_id_of_mem {l : List Nat} {g : Nat → Option Nat}
    (h : ∀ i ∈ l, g i = some i) : l.filterMap g = l := by
  induction l with
  | nil => rfl
  | cons x xs ih =>
    rw [List.filterMap_cons, h x (List.mem_cons_self x xs),
      ih (fun i hi => h i (List.mem_cons_of_mem x hi))]

theorem evalAnd_ids (L R : List Row) :
    (evalAnd L R).filterMap extractId = (idSet L).filter (fun i => decide (i ∈ idSet R)) := by
  unfold evalAnd
  rw [List.filterMap_filterMap]
  apply filterMap_id_of_mem
  intro i hi
  have hiL : i ∈ idSet L := (List.mem_filter.mp hi).1
  have hiLR : i ∈ (L ++ R).filterMap extractId := by
    rw [List.filterMap_append, List.mem_append]
    exact Or.inl (List.mem_dedup.mp hiL)
  have hk : i ∈ (idMap (L ++ R)).map Prod.fst := (idMap_keys_iff _ i).mpr hiLR
  obtain ⟨p, hp, hpk, hlook⟩ := dictLookup_mem hk
  rw [hlook]
  show extractId p.2 = some i
  rw [(idMap_good (L ++ R)).1 p hp, hpk]

theorem snd_filterMap_eq_fst {m : List (Nat × Row)}
    (h : ∀ q ∈ m, extractId q.2 = some q.1) :
    (m.map Prod.snd).filterMap extractId = m.map Prod.fst := by
  induction m with
  | nil => rfl
  | cons q m ih =>
    rw [List.map_cons, List.filterMap_cons, h q (List.mem_cons_self q m), List.map_cons]
    show q.1 :: (m.map Prod.snd).filterMap extractId = q.1 :: m.map Prod.fst
    rw [ih (fun r hr => h r (List.mem_cons_of_mem q hr))]

theorem evalOr_ids (L R : List Row) :
    (evalOr L R).filterMap extractId = (idMap (L ++ R)).map Prod.fst :=
  snd_filterMap_eq_fst (idMap_good (L ++ R)).1


/-- C4: the planner evaluates `AND` by intersecting the two sides'
restaurant-id sets and `OR` by taking their union; the combined result's
id set is hence a subset (resp. superset) of each side's, and no
restaurant id occurs twice in a combined result. -/
theorem planner_and_or_id_sets (L R : List Row) :
    (∀ i, i ∈ (evalAnd L R).filterMap extractId ↔
        i ∈ L.filterMap extractId ∧ i ∈ R.filterMap extractId) ∧
    (∀ i, i ∈ (evalOr L R).filterMap extractId ↔
        i ∈ L.filterMap extractId ∨ i ∈ R.filterMap extractId) ∧
    ((evalAnd L R).filterMap extractId).Nodup ∧
    ((evalOr L R).filterMap extractId).Nodup := by
  refine ⟨?_, ?_, ?_, ?_⟩
  · intro i
    rw [evalAnd_ids, List.mem_filter]
    simp [idSet]
  · intro i
    rw [evalOr_ids, idMap_keys_iff, List.filterMap_append, List.mem_append]
  · rw [evalAnd_ids]
    exact (List.nodup_dedup _).filter _
  · rw [evalOr_ids]
    exact (idMap_good (L ++ R)).2

end QE

namespace EH

theorem splitBucket_shape (hf : Nat → Nat) (cap : Nat) (st : State) (idx : Nat)
    {b : Bucket} (hb : readBucket st (st.directory.getD idx 0) = some b) :
    (splitBucket hf cap st idx).global_depth =
      (if b.local_depth = st.global_depth then st.global_depth + 1 else st.global_depth) ∧
    (splitBucket hf cap st idx).directory.length =
      (if b.local_depth = st.global_depth then 2 * st.directory.length
        else st.directory.length) := by
  simp only [splitBucket, hb]
  by_cases h : b.local_depth = st.global_depth <;>
    simp [h, doubleDirectory, writeBucket, Nat.two_mul]

theorem splitBucket_inv (hf : Nat → Nat) (cap : Nat) (st : State) (idx : Nat)
    (h : DirInv st) : DirInv (splitBucket hf cap st idx) := by
  cases hb : readBucket st (st.directory.getD idx 0) with
  | none =>
    simp only [splitBucket, hb]
    exact h
  | some b =>
    obtain ⟨h1, h2⟩ := splitBucket_shape hf cap st idx hb
    by_cases hld : b.local_depth = st.global_depth
    · rw [if_pos hld] at h1 h2
      refine ⟨?_, ?_⟩
      · rw [h1, h2, h.1, pow_succ, Nat.mul_comm]
      · rw [h1]; exact Nat.le_succ_of_le h.2
    · rw [if_neg hld] at h1 h2
      rw [DirInv, h1, h2]
      exact h

theorem addLoop_inv (hf : Nat → Nat) (cap key val h : Nat) (fuel : Nat) (st : State)
    (hi : DirInv st) : DirInv (addLoop hf cap key val h fuel st) := by
  induction fuel generalizing st with
  | zero => exact hi
  | succ n ih =>
    unfold addLoop
    dsimp only
    split
    · exact hi
    · split
      · exact hi
      · split
        · exact hi
        · exact ih _ (splitBucket_inv hf cap st _ hi)

theorem remove_inv (hf : Nat → Nat) (key : Nat) (st : State)
    (hi : DirInv st) : DirInv (remove hf key st) := by
  unfold remove
  dsimp only
  split
  · exact hi
  · split
    · exact hi
    · exact hi

theorem reach_inv {hf : Nat → Nat} {cap : Nat} {st : State}
    (h : Reach hf cap st) : DirInv st := by
  induction h with
  | init => exact ⟨rfl, le_refl 1⟩
  | add key val fuel _ ih => exact addLoop_inv hf cap key val (hf key) fuel _ ih
  | rem key _ ih => exact remove_inv hf key _ ih

end EH

/-- C5: every state reachable by `add`/`remove` sequences satisfies
`|directory| = 2^global_depth` and `global_depth ≥ 1`; a split performed
on a bucket whose local depth equals the global depth bumps the global
depth by one and exactly doubles the directory, `_double_directory`
itself duplicating the entry vector. -/
theorem exthash_directory_invariant (hf : Nat → Nat) (cap : Nat) (st : EH.State)
    (h : EH.Reach hf cap st) :
    (st.directory.length = 2 ^ st.global_depth ∧ 1 ≤ st.global_depth) ∧
    (∀ idx b, EH.readBucket st (st.directory.getD idx 0) = some b →
        b.local_depth = st.global_depth →
        (EH.splitBucket hf cap st idx).global_depth = st.global_depth + 1 ∧
        (EH.splitBucket hf cap st idx).directory.length = 2 * st.directory.length) ∧
    (EH.doubleDirectory st).directory = st.directory ++ st.directory ∧
    (EH.doubleDirectory st).global_depth = st.global_depth + 1 := by
  refine ⟨EH.reach_inv h, ?_, rfl, rfl⟩
  intro idx b hb hld
  obtain ⟨h1, h2⟩ := EH.splitBucket_shape hf cap st idx hb
  rw [if_pos hld] at h1 h2
  exact ⟨h1, h2⟩

namespace BPlus

theorem descIdx_le (keys : List Nat) (k : Nat) : descIdx keys k ≤ keys.length := by
  unfold descIdx
  exact (keys.takeWhile_sublist _).length_le

theorem searchT_node (c0 : Tree) (rest : List (Nat × Tree)) (k : Nat) :
    searchT (Tree.node c0 rest) k =
      searchT (childAt c0 rest (descIdx (rest.map Prod.fst) k)) k := by
  conv_lhs => rw [searchT]

theorem replaceAlong_node (c0 : Tree) (rest : List (Nat × Tree)) (k v : Nat) :
    replaceAlong (Tree.node c0 rest) k v =
      Tree.node
        (setChild c0 rest (descIdx (rest.map Prod.fst) k)
          (replaceAlong (childAt c0 rest (descIdx (rest.map Prod.fst) k)) k v)).1
        (setChild c0 rest (descIdx (rest.map Prod.fst) k)
          (replaceAlong (childAt c0 rest (descIdx (rest.map Prod.fst) k)) k v)).2 := by
  conv_lhs => rw [replaceAlong]

theorem setSnd_map_fst (ps : List (Nat × Tree)) (j : Nat) (c : Tree) :
    (setSnd ps j c).map Prod.fst = ps.map Prod.fst := by
  induction ps generalizing j with
  | nil => rfl
  | cons p rest ih =>
    cases j with
    | zero => rfl
    | succ m =>
      show p.1 :: (setSnd rest m c).map Prod.fst = p.1 :: rest.map Prod.fst
      rw [ih m]

theorem setChild_map_fst (c0 : Tree) (rest : List (Nat × Tree)) (i : Nat) (c : Tree) :
    (setChild c0 rest i c).2.map Prod.fst = rest.map Prod.fst := by
  unfold setChild
  split
  · rfl
  · exact setSnd_map_fst rest (i - 1) c

theorem setSnd_getD_self (ps : List (Nat × Tree)) (j : Nat) (c : Tree)
    (d : Nat × Tree) (h : j < ps.length) : ((setSnd ps j c).getD j d).2 = c := by
  induction ps generalizing j with
  | nil => simp at h
  | cons p rest ih =>
    cases j with
    | zero => rfl
    | succ m =>
      show ((setSnd rest m c).getD m d).2 = c
      exact ih m (by simpa using h)

theorem childAt_setChild (c0 : Tree) (rest : List (Nat × Tree)) (i : Nat) (c : Tree)
    (h : i ≤ rest.length) :
    childAt (setChild c0 rest i c).1 (setChild c0 rest i c).2 i = c := by
  unfold childAt setChild
  by_cases hi : i = 0
  · simp [hi]
  · rw [if_neg hi, if_neg hi]
    show ((setSnd rest (i - 1) c).getD (i - 1) (0, Tree.leaf [])).2 = c
    exact setSnd_getD_self rest (i - 1) c (0, Tree.leaf []) (by omega)

theorem setSnd_setSnd (ps : List (Nat × Tree)) (j : Nat) (c x : Tree) :
    setSnd (setSnd ps j c) j x = setSnd ps j x := by
  induction ps generalizing j with
  | nil => rfl
  | cons p rest ih =>
    cases j with
    | zero => rfl
    | succ m =>
      show p :: setSnd (setSnd rest m c) m x = p :: setSnd rest m x
      rw [ih m]

theorem setChild_setChild (c0 : Tree) (rest : List (Nat × Tree)) (i : Nat) (c x : Tree) :
    setChild (setChild c0 rest i c).1 (setChild c0 rest i c).2 i x =
      setChild c0 rest i x := by
  unfold setChild
  by_cases hi : i = 0
  · simp [hi]
  · rw [if_neg hi, if_neg hi, if_neg hi]
    show (c0, setSnd (setSnd rest (i - 1) c) (i - 1) x) = (c0, setSnd rest (i - 1) x)
    rw [setSnd_setSnd]

theorem searchT_leaf_any {es : List (Nat × Nat)} {k : Nat}
    (h : (searchT (Tree.leaf es) k).isSome) :
    es.any (fun p => p.1 == k) = true := by
  rw [searchT] at h
  rw [List.any_eq_true]
  cases hf : List.find? (fun p => p.1 == k) es with
  | none => rw [hf] at h; simp at h
  | some p =>
    have h1 := List.mem_of_find?_eq_some hf
    have h2 := List.find?_some hf
    exact ⟨p, h1, h2⟩

theorem setFirst_find? (es : List (Nat × Nat)) (k v : Nat)
    (h : es.any (fun p => p.1 == k) = true) :
    (setFirst es k v).find? (fun p => p.1 == k) = some (k, v) := by
  induction es with
  | nil => simp at h
  | cons p rest ih =>
    unfold setFirst
    by_cases hp : (p.1 == k) = true
    · rw [if_pos hp]
      simp [List.find?_cons]
    · rw [if_neg hp]
      rw [@List.find?_cons_of_neg _ (fun q => q.1 == k) p (setFirst rest k v) hp]
      apply ih
      simp only [List.any_cons, hp, Bool.false_or] at h
      exact h

theorem setFirst_map_shape (es : List (Nat × Nat)) (k v : Nat) :
    (setFirst es k v).map (fun p => (p.1, 0)) = es.map (fun p => (p.1, 0)) := by
  induction es with
  | nil => rfl
  | cons p rest ih =>
    unfold setFirst
    by_cases hp : (p.1 == k) = true
    · rw [if_pos hp]
      have hk : p.1 = k := by simpa using hp
      simp [hk]
    · rw [if_neg hp]
      simp only [List.map_cons]
      rw [ih]

theorem setFirst_setFirst (es : List (Nat × Nat)) (k v1 v2 : Nat) :
    setFirst (setFirst es k v1) k v2 = setFirst es k v2 := by
  induction es with
  | nil => rfl
  | cons p rest ih =>
    by_cases hp : (p.1 == k) = true
    · show setFirst (if (p.1 == k) = true then (k, v1) :: rest else _) k v2 = _
      rw [if_pos hp]
      show (if (k == k) = true then (k, v2) :: rest else _) = _
      rw [if_pos (by simp)]
      show _ = (if (p.1 == k) = true then (k, v2) :: rest else _)
      rw [if_pos hp]
    · show setFirst (if (p.1 == k) = true then (k, v1) :: rest
          else p :: setFirst rest k v1) k v2 = _
      rw [if_neg hp]
      show (if (p.1 == k) = true then (k, v2) :: setFirst rest k v1
          else p :: setFirst (setFirst rest k v1) k v2) = _
      rw [if_neg hp, ih]
      show _ = (if (p.1 == k) = true then (k, v2) :: rest else p :: setFirst rest k v2)
      rw [if_neg hp]

theorem insertRec_of_found (t : Tree) (k v : Nat) (h : (searchT t k).isSome) :
    insertRec t k v = (replaceAlong t k v, none) := by
  cases t with
  | leaf es =>
    have hany := searchT_leaf_any h
    rw [insertRec, replaceAlong, if_pos hany]
  | node c0 rest =>
    rw [searchT_node] at h
    have ih := insertRec_of_found (childAt c0 rest (descIdx (rest.map Prod.fst) k)) k v h
    rw [insertRec, replaceAlong, ih]
termination_by sizeOf t
decreasing_by
  subst_vars
  exact sizeOf_childAt_lt_node _ _ _

theorem searchT_replaceAlong (t : Tree) (k v : Nat) (h : (searchT t k).isSome) :
    searchT (replaceAlong t k v) k = some v := by
  cases t with
  | leaf es =>
    have hany := searchT_leaf_any h
    rw [replaceAlong, searchT, setFirst_find? es k v hany]
    rfl
  | node c0 rest =>
    rw [searchT_node] at h
    have ih := searchT_replaceAlong (childAt c0 rest (descIdx (rest.map Prod.fst) k)) k v h
    rw [replaceAlong_node, searchT_node, setChild_map_fst]
    rw [childAt_setChild _ _ _ _ (le_trans (descIdx_le _ k) (le_of_eq (List.length_map _ _)))]
    exact ih
termination_by sizeOf t
decreasing_by
  subst_vars
  exact sizeOf_childAt_lt_node _ _ _

theorem shapeL_setSnd (ps : List (Nat × Tree)) (j : Nat) (c : Tree)
    (h : shapeT c = shapeT ((ps.getD j (0, Tree.leaf [])).2)) :
    shapeL (setSnd ps j c) = shapeL ps := by
  induction ps generalizing j with
  | nil => rfl
  | cons p rest ih =>
    obtain ⟨pk, pc⟩ := p
    cases j with
    | zero =>
      have h' : shapeT c = shapeT pc := h
      rw [setSnd, shapeL, shapeL, h']
    | succ m =>
      have h' : shapeT c = shapeT ((rest.getD m (0, Tree.leaf [])).2) := h
      rw [setSnd, shapeL, shapeL, ih m h']

theorem shapeT_replaceAlong (t : Tree) (k v : Nat) :
    shapeT (replaceAlong t k v) = shapeT t := by
  cases t with
  | leaf es =>
    rw [replaceAlong, shapeT, shapeT, setFirst_map_shape]
  | node c0 rest =>
    have ih := shapeT_replaceAlong (childAt c0 rest (descIdx (rest.map Prod.fst) k)) k v
    rw [replaceAlong_node, shapeT, shapeT]
    unfold setChild
    by_cases hi : descIdx (rest.map Prod.fst) k = 0
    · rw [if_pos hi]
      dsimp only
      rw [ih, hi]
      unfold childAt
      rw [if_pos rfl]
    · rw [if_neg hi]
      dsimp only
      have harg : shapeT (replaceAlong (childAt c0 rest (descIdx (rest.map Prod.fst) k)) k v) =
          shapeT ((rest.getD (descIdx (rest.map Prod.fst) k - 1) (0, Tree.leaf [])).2) := by
        rw [ih]
        unfold childAt
        rw [if_neg hi]
      rw [shapeL_setSnd _ _ _ harg]
termination_by sizeOf t
decreasing_by
  subst_vars
  exact sizeOf_childAt_lt_node _ _ _

theorem replaceAlong_replaceAlong (t : Tree) (k v1 v2 : Nat) :
    replaceAlong (replaceAlong t k v1) k v2 = replaceAlong t k v2 := by
  cases t with
  | leaf es =>
    rw [replaceAlong, replaceAlong, replaceAlong, setFirst_setFirst]
  | node c0 rest =>
    have ih := replaceAlong_replaceAlong (childAt c0 rest (descIdx (rest.map Prod.fst) k)) k v1 v2
    have hle : descIdx (rest.map Prod.fst) k ≤ rest.length :=
      le_trans (descIdx_le _ k) (le_of_eq (List.length_map _ _))
    rw [replaceAlong_node]
    rw [replaceAlong_node]
    rw [setChild_map_fst]
    rw [childAt_setChild _ _ _ _ hle]
    rw [ih]
    rw [setChild_setChild]
    rw [replaceAlong_node]
termination_by sizeOf t
decreasing_by
  subst_vars
  exact sizeOf_childAt_lt_node _ _ _

theorem insertT_of_found (t : Tree) (k v : Nat) (h : (searchT t k).isSome) :
    insertT t k v = replaceAlong t k v := by
  rw [insertT, insertRec_of_found t k v h]

end BPlus

/-- C9: inserting a key that is already present in the addressed leaf
replaces the stored value in place: the resulting tree is exactly the
original with that one value overwritten, so the key skeleton (layout,
splits, root) is unchanged and no duplicate key is stored; `search`
returns the latest value, and repeating the same insert is idempotent. -/
theorem bplus_insert_existing_key (t : BPlus.Tree) (k v v1 v2 : Nat)
    (h : (BPlus.searchT t k).isSome) :
    BPlus.insertT t k v = BPlus.replaceAlong t k v ∧
    BPlus.shapeT (BPlus.insertT t k v) = BPlus.shapeT t ∧
    BPlus.searchT (BPlus.insertT t k v) k = some v ∧
    BPlus.searchT (BPlus.insertT (BPlus.insertT t k v1) k v2) k = some v2 ∧
    BPlus.insertT (BPlus.insertT t k v) k v = BPlus.insertT t k v := by
  have h1 := BPlus.insertT_of_found t k v h
  have h2 : BPlus.searchT (BPlus.insertT t k v1) k = some v1 := by
    rw [BPlus.insertT_of_found t k v1 h]
    exact BPlus.searchT_replaceAlong t k v1 h
  have h2s : (BPlus.searchT (BPlus.insertT t k v1) k).isSome := by
    rw [h2]; rfl
  refine ⟨h1, ?_, ?_, ?_, ?_⟩
  · rw [h1, BPlus.shapeT_replaceAlong]
  · rw [h1]
    exact BPlus.searchT_replaceAlong t k v h
  · rw [BPlus.insertT_of_found _ k v2 h2s]
    exact BPlus.searchT_replaceAlong _ k v2 h2s
  · have h3 : BPlus.searchT (BPlus.insertT t k v) k = some v := by
      rw [h1]
      exact BPlus.searchT_replaceAlong t k v h
    have h3s : (BPlus.searchT (BPlus.insertT t k v) k).isSome := by
      rw [h3]; rfl
    rw [BPlus.insertT_of_found _ k v h3s, h1, BPlus.replaceAlong_replaceAlong]

/-- Witness for C9 on a two-node tree holding keys 1, 2, 3 (key 2
present). -/
theorem bplus_insert_existing_key_witness :
    (BPlus.searchT (BPlus.Tree.node (BPlus.Tree.leaf [(1, 10)]) [(2, BPlus.Tree.leaf [(2, 20), (3, 30)])]) 2).isSome ∧
    BPlus.insertT (BPlus.Tree.node (BPlus.Tree.leaf [(1, 10)]) [(2, BPlus.Tree.leaf [(2, 20), (3, 30)])]) 2 99 =
      BPlus.replaceAlong (BPlus.Tree.node (BPlus.Tree.leaf [(1, 10)]) [(2, BPlus.Tree.leaf [(2, 20), (3, 30)])]) 2 99 := by
  have hs : (BPlus.searchT (BPlus.Tree.node (BPlus.Tree.leaf [(1, 10)]) [(2, BPlus.Tree.leaf [(2, 20), (3, 30)])]) 2).isSome := by
    simp [BPlus.searchT, BPlus.childAt, BPlus.descIdx, List.takeWhile]
  exact ⟨hs, (bplus_insert_existing_key _ 2 99 0 0 hs).1⟩

/-- Witness for C5 at the freshly initialised index with the identity hash
and bucket capacity 4 (the build parameters used by the manager). -/
theorem exthash_directory_invariant_witness :
    (EH.initState.directory.length = 2 ^ EH.initState.global_depth ∧
      1 ≤ EH.initState.global_depth) ∧
    (EH.splitBucket (fun n => n) 4 EH.initState 0).global_depth =
      EH.initState.global_depth + 1 ∧
    (EH.splitBucket (fun n => n) 4 EH.initState 0).directory.length =
      2 * EH.initState.directory.length := by
  have h := exthash_directory_invariant (fun n => n) 4 EH.initState EH.Reach.init
  exact ⟨h.1, h.2.1 0 ⟨1, []⟩ (by decide) (by decide)⟩

namespace BPlus

theorem leavesOf_leaf (es : List (Nat × Nat)) : leavesOf (Tree.leaf es) = [es] := by
  conv_lhs => rw [leavesOf]

theorem leavesOf_node (c0 : Tree) (rest : List (Nat × Tree)) :
    leavesOf (Tree.node c0 rest) = leavesOf c0 ++ leavesOfL rest := by
  conv_lhs => rw [leavesOf]

theorem leavesOfL_nil : leavesOfL [] = [] := by
  conv_lhs => rw [leavesOfL]

theorem leavesOfL_cons (k : Nat) (c : Tree) (ps : List (Nat × Tree)) :
    leavesOfL ((k, c) :: ps) = leavesOf c ++ leavesOfL ps := by
  conv_lhs => rw [leavesOfL]

theorem wfT_leaf (lo hi : Option Nat) (es : List (Nat × Nat)) :
    wfT lo hi (Tree.leaf es) =
      (chainLt (es.map Prod.fst) && es.all (fun p => inLoB lo p.1 && inHiB hi p.1)) := by
  conv_lhs => rw [wfT]

theorem wfT_node (lo hi : Option Nat) (c0 : Tree) (rest : List (Nat × Tree)) :
    wfT lo hi (Tree.node c0 rest) = (wfT lo (headKeyOr rest hi) c0 && wfL lo hi rest) := by
  conv_lhs => rw [wfT]

theorem wfL_cons (lo hi : Option Nat) (k : Nat) (c : Tree) (ps : List (Nat × Tree)) :
    wfL lo hi ((k, c) :: ps) =
      (inLoB lo k && inHiB hi k && wfT (some k) (headKeyOr ps hi) c && wfL (some k) hi ps) := by
  conv_lhs => rw [wfL]

theorem inLoB_le {lo : Option Nat} {a b : Nat} (h : inLoB lo a = true) (hab : a ≤ b) :
    inLoB lo b = true := by
  cases lo with
  | none => rfl
  | some x =>
    simp only [inLoB, decide_eq_true_eq] at h ⊢
    omega

theorem inHiB_ge {hi : Option Nat} {a b : Nat} (h : inHiB hi b = true) (hab : a ≤ b) :
    inHiB hi a = true := by
  cases hi with
  | none => rfl
  | some x =>
    simp only [inHiB, decide_eq_true_eq] at h ⊢
    omega

theorem inLoB_some {a k : Nat} : inLoB (some a) k = true ↔ a ≤ k := by
  simp [inLoB]

theorem inHiB_some {b k : Nat} : inHiB (some b) k = true ↔ k < b := by
  simp [inHiB]

theorem chainLt_iff_chain' {l : List Nat} : chainLt l = true ↔ List.Chain' (· < ·) l := by
  induction l with
  | nil => simp [chainLt]
  | cons x xs ih =>
    cases xs with
    | nil => simp [chainLt]
    | cons y ys =>
      rw [chainLt, List.chain'_cons]
      simp only [Bool.and_eq_true, decide_eq_true_eq]
      rw [ih]

mutual

theorem wfT_entries (lo hi : Option Nat) (t : Tree) (h : wfT lo hi t = true) :
    (∀ p ∈ (leavesOf t).flatten, inLoB lo p.1 = true ∧ inHiB hi p.1 = true) ∧
    List.Pairwise (fun p q : Nat × Nat => p.1 < q.1) (leavesOf t).flatten := by
  cases t with
  | leaf es =>
    rw [wfT_leaf] at h
    simp only [Bool.and_eq_true] at h
    obtain ⟨hchain, hall⟩ := h
    rw [leavesOf_leaf]
    have hflat : ([es] : List (List (Nat × Nat))).flatten = es := by simp
    rw [hflat]
    constructor
    · intro p hp
      have := List.all_eq_true.mp hall p hp
      simpa [Bool.and_eq_true] using this
    · have hp := (List.chain'_iff_pairwise).mp (chainLt_iff_chain'.mp hchain)
      rw [List.pairwise_map] at hp
      exact hp
  | node c0 rest =>
    rw [wfT_node] at h
    simp only [Bool.and_eq_true] at h
    obtain ⟨h0, hL⟩ := h
    have ih0 := wfT_entries lo (headKeyOr rest hi) c0 h0
    have ihL := wfL_entries lo hi rest hL
    rw [leavesOf_node, List.flatten_append]
    rw [List.pairwise_append]
    cases rest with
    | nil =>
      rw [leavesOfL_nil] at ihL ⊢
      simp only [List.flatten_nil, List.append_nil]
      refine ⟨fun p hp => ih0.1 p hp, ih0.2, ihL.2, by simp⟩
    | cons q ps =>
      obtain ⟨k1, c⟩ := q
      have hsep : inLoB lo k1 = true ∧ inHiB hi k1 = true := by
        rw [wfL_cons] at hL
        simp only [Bool.and_eq_true] at hL
        exact ⟨hL.1.1.1, hL.1.1.2⟩
      have hhead : headKeyOr ((k1, c) :: ps) hi = some k1 := rfl
      have hheadlo : headKeyOr ((k1, c) :: ps) lo = some k1 := rfl
      rw [hhead] at ih0 h0
      rw [hheadlo] at ihL
      refine ⟨?_, ih0.2, ihL.2, ?_⟩
      · intro p hp
        rw [List.mem_append] at hp
        rcases hp with hp | hp
        · have hb := ih0.1 p hp
          refine ⟨hb.1, ?_⟩
          have hlt : p.1 < k1 := inHiB_some.mp hb.2
          exact inHiB_ge hsep.2 (by omega)
        · have hb := ihL.1 p hp
          have hge : k1 ≤ p.1 := inLoB_some.mp hb.1
          exact ⟨inLoB_le hsep.1 hge, hb.2⟩
      · intro a ha b hb
        have h1 : a.1 < k1 := inHiB_some.mp (ih0.1 a ha).2
        have h2 : k1 ≤ b.1 := inLoB_some.mp (ihL.1 b hb).1
        omega

theorem wfL_entries (lo hi : Option Nat) (ps : List (Nat × Tree)) (h : wfL lo hi ps = true) :
    (∀ p ∈ (leavesOfL ps).flatten,
        inLoB (headKeyOr ps lo) p.1 = true ∧ inHiB hi p.1 = true) ∧
    List.Pairwise (fun p q : Nat × Nat => p.1 < q.1) (leavesOfL ps).flatten := by
  cases ps with
  | nil =>
    rw [leavesOfL_nil]
    exact ⟨by simp, by simp⟩
  | cons q ps' =>
    obtain ⟨k1, c⟩ := q
    rw [wfL_cons] at h
    simp only [Bool.and_eq_true] at h
    obtain ⟨⟨⟨hlo1, hhi1⟩, hc⟩, hps⟩ := h
    have ihc := wfT_entries (some k1) (headKeyOr ps' hi) c hc
    have ihps := wfL_entries (some k1) hi ps' hps
    rw [leavesOfL_cons, List.flatten_append, List.pairwise_append]
    cases ps' with
    | nil =>
      rw [leavesOfL_nil] at ihps ⊢
      have hh : headKeyOr ([] : List (Nat × Tree)) hi = hi := rfl
      rw [hh] at ihc
      refine ⟨?_, ihc.2, by simp, by simp⟩
      intro p hp
      simp only [List.flatten_nil, List.append_nil] at hp
      exact ihc.1 p hp
    | cons q2 ps2 =>
      obtain ⟨k2, c2⟩ := q2
      have hk2 : k1 ≤ k2 ∧ inHiB hi k2 = true := by
        rw [wfL_cons] at hps
        simp only [Bool.and_eq_true] at hps
        exact ⟨inLoB_some.mp hps.1.1.1, hps.1.1.2⟩
      have hh : headKeyOr ((k2, c2) :: ps2) hi = some k2 := rfl
      have hh2 : headKeyOr ((k2, c2) :: ps2) (some k1) = some k2 := rfl
      rw [hh] at ihc
      rw [hh2] at ihps
      have hcbound : ∀ p ∈ (leavesOf c).flatten,
          inLoB (some k1) p.1 = true ∧ inHiB hi p.1 = true := by
        intro p hp
        have hb := ihc.1 p hp
        have hlt : p.1 < k2 := inHiB_some.mp hb.2
        exact ⟨hb.1, inHiB_ge hk2.2 (by omega)⟩
      have hpsbound : ∀ p ∈ (leavesOfL ((k2, c2) :: ps2)).flatten,
          inLoB (some k1) p.1 = true ∧ inHiB hi p.1 = true := by
        intro p hp
        have hb := ihps.1 p hp
        have hge : k2 ≤ p.1 := inLoB_some.mp hb.1
        exact ⟨inLoB_some.mpr (by omega), hb.2⟩
      refine ⟨?_, ihc.2, ihps.2, ?_⟩
      · intro p hp
        rw [List.mem_append] at hp
        rcases hp with hp | hp
        · exact hcbound p hp
        · exact hpsbound p hp
      · intro a ha b hb
        have h1 : a.1 < k2 := inHiB_some.mp (ihc.1 a ha).2
        have h2 : k2 ≤ b.1 := inLoB_some.mp (ihps.1 b hb).1
        omega

end

end BPlus

namespace BPlus

theorem childAt_cons_succ (c0 : Tree) (k1 : Nat) (c : Tree) (ps : List (Nat × Tree)) (i : Nat) :
    childAt c0 ((k1, c) :: ps) (i + 1) = childAt c ps i := by
  unfold childAt
  cases i with
  | zero =>
    rw [if_neg (by omega), if_pos rfl]
    rfl
  | succ j =>
    rw [if_neg (by omega), if_neg (by omega)]
    rfl

theorem descIdx_cons_le {k1 q : Nat} (keys : List Nat) (h : k1 ≤ q) :
    descIdx (k1 :: keys) q = descIdx keys q + 1 := by
  simp [descIdx, List.takeWhile_cons, h]

theorem descIdx_cons_gt {k1 q : Nat} (keys : List Nat) (h : ¬k1 ≤ q) :
    descIdx (k1 :: keys) q = 0 := by
  simp [descIdx, List.takeWhile_cons, h]

theorem descLeafPos_leaf (es : List (Nat × Nat)) (q : Nat) :
    descLeafPos (Tree.leaf es) q = 0 := by
  conv_lhs => rw [descLeafPos]

theorem descLeafPos_node (c0 : Tree) (rest : List (Nat × Tree)) (q : Nat) :
    descLeafPos (Tree.node c0 rest) q =
      numLeavesUpto c0 rest (descIdx (rest.map Prod.fst) q) +
        descLeafPos (childAt c0 rest (descIdx (rest.map Prod.fst) q)) q := by
  conv_lhs => rw [descLeafPos]

theorem numLeavesUpto_cons_succ (c0 : Tree) (k1 : Nat) (c : Tree)
    (ps : List (Nat × Tree)) (i : Nat) :
    numLeavesUpto c0 ((k1, c) :: ps) (i + 1) =
      (leavesOf c0).length + numLeavesUpto c ps i := by
  cases i with
  | zero =>
    simp [numLeavesUpto, leavesOfL_nil]
  | succ j =>
    simp only [numLeavesUpto, List.take_succ_cons, leavesOfL_cons, List.length_append]

theorem descLeafPos_node_nil (c0 : Tree) (q : Nat) :
    descLeafPos (Tree.node c0 []) q = descLeafPos c0 q := by
  rw [descLeafPos_node]
  have h0 : descIdx (([] : List (Nat × Tree)).map Prod.fst) q = 0 := rfl
  rw [h0]
  have h1 : numLeavesUpto c0 [] 0 = 0 := rfl
  have h2 : childAt c0 [] 0 = c0 := rfl
  rw [h1, h2, Nat.zero_add]

theorem descLeafPos_node_cons_le (c0 : Tree) (k1 : Nat) (c : Tree)
    (ps : List (Nat × Tree)) (q : Nat) (h : k1 ≤ q) :
    descLeafPos (Tree.node c0 ((k1, c) :: ps)) q =
      (leavesOf c0).length + descLeafPos (Tree.node c ps) q := by
  rw [descLeafPos_node, descLeafPos_node, List.map_cons, descIdx_cons_le _ h]
  rw [numLeavesUpto_cons_succ, childAt_cons_succ]
  omega

theorem descLeafPos_node_cons_gt (c0 : Tree) (k1 : Nat) (c : Tree)
    (ps : List (Nat × Tree)) (q : Nat) (h : ¬k1 ≤ q) :
    descLeafPos (Tree.node c0 ((k1, c) :: ps)) q = descLeafPos c0 q := by
  rw [descLeafPos_node, List.map_cons, descIdx_cons_gt _ h]
  have h1 : numLeavesUpto c0 ((k1, c) :: ps) 0 = 0 := rfl
  have h2 : childAt c0 ((k1, c) :: ps) 0 = c0 := rfl
  rw [h1, h2, Nat.zero_add]

theorem leavesOf_node_cons (c0 : Tree) (k1 : Nat) (c : Tree) (ps : List (Nat × Tree)) :
    leavesOf (Tree.node c0 ((k1, c) :: ps)) = leavesOf c0 ++ leavesOf (Tree.node c ps) := by
  rw [leavesOf_node, leavesOfL_cons, leavesOf_node]

theorem wfT_node_nil_part {lo hi : Option Nat} {c0 : Tree}
    (h : wfT lo hi (Tree.node c0 []) = true) : wfT lo hi c0 = true := by
  rw [wfT_node] at h
  simp only [Bool.and_eq_true] at h
  have hh : headKeyOr ([] : List (Nat × Tree)) hi = hi := rfl
  rw [hh] at h
  exact h.1

theorem wfT_node_cons_parts {lo hi : Option Nat} {c0 : Tree} {k1 : Nat} {c : Tree}
    {ps : List (Nat × Tree)}
    (h : wfT lo hi (Tree.node c0 ((k1, c) :: ps)) = true) :
    wfT lo (some k1) c0 = true ∧ inLoB lo k1 = true ∧ inHiB hi k1 = true ∧
      wfT (some k1) hi (Tree.node c ps) = true := by
  rw [wfT_node] at h
  simp only [Bool.and_eq_true] at h
  obtain ⟨h0, hL⟩ := h
  rw [wfL_cons] at hL
  simp only [Bool.and_eq_true] at hL
  obtain ⟨⟨⟨hlo, hhi⟩, hc⟩, hps⟩ := hL
  have hh : headKeyOr ((k1, c) :: ps) hi = some k1 := rfl
  rw [hh] at h0
  refine ⟨h0, hlo, hhi, ?_⟩
  rw [wfT_node]
  simp only [Bool.and_eq_true]
  exact ⟨hc, hps⟩

theorem descLeafPos_le (t : Tree) (q : Nat) : descLeafPos t q ≤ (leavesOf t).length := by
  cases t with
  | leaf es =>
    rw [descLeafPos_leaf, leavesOf_leaf]
    simp
  | node c0 rest =>
    cases rest with
    | nil =>
      rw [descLeafPos_node_nil, leavesOf_node, leavesOfL_nil]
      have := descLeafPos_le c0 q
      simpa using this
    | cons pp ps =>
      obtain ⟨k1, c⟩ := pp
      by_cases hk : k1 ≤ q
      · rw [descLeafPos_node_cons_le c0 k1 c ps q hk, leavesOf_node_cons c0 k1 c ps]
        have := descLeafPos_le (Tree.node c ps) q
        rw [List.length_append]
        omega
      · rw [descLeafPos_node_cons_gt c0 k1 c ps q hk, leavesOf_node_cons c0 k1 c ps]
        have := descLeafPos_le c0 q
        rw [List.length_append]
        omega
termination_by sizeOf t
decreasing_by
  all_goals
    subst_vars
    simp only [Tree.node.sizeOf_spec, List.cons.sizeOf_spec, Prod.mk.sizeOf_spec]
    omega

theorem descent_prefix_aux (n : Nat) : ∀ (t : Tree), sizeOf t ≤ n →
    ∀ (q : Nat) (lo hi : Option Nat), wfT lo hi t = true →
    ∀ p ∈ ((leavesOf t).take (descLeafPos t q)).flatten, p.1 < q := by
  induction n with
  | zero =>
    intro t hsz
    have := two_le_sizeOf_tree t
    omega
  | succ n ih =>
    intro t hsz q lo hi h
    cases t with
    | leaf es =>
      rw [descLeafPos_leaf]
      simp
    | node c0 rest =>
      rcases rest with _ | ⟨⟨k1, c⟩, ps⟩
      · rw [descLeafPos_node_nil, leavesOf_node, leavesOfL_nil, List.append_nil]
        refine ih c0 ?_ q lo hi (wfT_node_nil_part h)
        simp only [Tree.node.sizeOf_spec] at hsz
        omega
      · obtain ⟨h0, hlo, hhi, hrest⟩ := wfT_node_cons_parts h
        have hsz2 : sizeOf (Tree.node c ps) ≤ n ∧ sizeOf c0 ≤ n := by
          simp only [Tree.node.sizeOf_spec, List.cons.sizeOf_spec,
            Prod.mk.sizeOf_spec] at hsz ⊢
          have := two_le_sizeOf_tree c0
          have := one_le_sizeOf_list ps
          omega
        by_cases hk : k1 ≤ q
        · rw [descLeafPos_node_cons_le c0 k1 c ps q hk, leavesOf_node_cons c0 k1 c ps]
          rw [List.take_append_eq_append_take]
          rw [List.take_of_length_le (by omega)]
          rw [Nat.add_sub_cancel_left]
          rw [List.flatten_append]
          intro p hp
          rw [List.mem_append] at hp
          rcases hp with hp | hp
          · have hb := (wfT_entries lo (some k1) c0 h0).1 p hp
            have := inHiB_some.mp hb.2
            omega
          · exact ih (Tree.node c ps) hsz2.1 q (some k1) hi hrest p hp
        · rw [descLeafPos_node_cons_gt c0 k1 c ps q hk, leavesOf_node_cons c0 k1 c ps]
          rw [List.take_append_eq_append_take]
          have hle := descLeafPos_le c0 q
          rw [Nat.sub_eq_zero_of_le hle, List.take_zero, List.append_nil]
          exact ih c0 hsz2.2 q lo (some k1) h0

theorem descent_prefix (t : Tree) (q : Nat) (lo hi : Option Nat)
    (h : wfT lo hi t = true) :
    ∀ p ∈ ((leavesOf t).take (descLeafPos t q)).flatten, p.1 < q :=
  descent_prefix_aux (sizeOf t) t (le_refl _) q lo hi h

theorem scanLeaf_sorted (lo hi : Nat) (l : List (Nat × Nat))
    (h : List.Pairwise (fun p q : Nat × Nat => p.1 < q.1) l) :
    scanLeaf lo hi l =
      (l.filter (fun p => decide (lo ≤ p.1) && decide (p.1 ≤ hi)),
        l.any (fun p => decide (hi < p.1))) := by
  induction l with
  | nil => rfl
  | cons p ps ih =>
    rw [List.pairwise_cons] at h
    obtain ⟨hp, hps⟩ := h
    simp only [scanLeaf]
    by_cases h1 : lo ≤ p.1 ∧ p.1 ≤ hi
    · rw [if_pos h1, ih hps]
      rw [List.filter_cons, List.any_cons]
      have hb : (decide (lo ≤ p.1) && decide (p.1 ≤ hi)) = true := by
        simp only [Bool.and_eq_true, decide_eq_true_eq]
        exact h1
      rw [hb]
      have h2 : decide (hi < p.1) = false := by
        rw [decide_eq_false_iff_not]
        omega
      rw [h2, Bool.false_or]
      rw [if_pos rfl]
    · rw [if_neg h1]
      by_cases h2 : hi < p.1
      · rw [if_pos h2]
        have hfail : ∀ q ∈ p :: ps,
            ¬((decide (lo ≤ q.1) && decide (q.1 ≤ hi)) = true) := by
          intro q hq
          simp only [Bool.and_eq_true, decide_eq_true_eq, not_and]
          rcases List.mem_cons.mp hq with rfl | hq
          · intro _
            omega
          · have := hp q hq
            intro _
            omega
        rw [List.filter_eq_nil_iff.mpr hfail]
        rw [List.any_cons]
        have h2b : decide (hi < p.1) = true := by
          rw [decide_eq_true_eq]
          exact h2
        rw [h2b, Bool.true_or]
      · rw [if_neg h2, ih hps]
        have hb : (decide (lo ≤ p.1) && decide (p.1 ≤ hi)) = false := by
          have hn : ¬lo ≤ p.1 := fun hc => h1 ⟨hc, by omega⟩
          simp [hn]
        rw [List.filter_cons, List.any_cons, hb]
        have h2b : decide (hi < p.1) = false := by
          rw [decide_eq_false_iff_not]
          exact h2
        rw [h2b, Bool.false_or]
        rw [if_neg (by simp)]

theorem scanChain_sorted (lo hi : Nat) (ls : List (List (Nat × Nat)))
    (h : List.Pairwise (fun p q : Nat × Nat => p.1 < q.1) ls.flatten) :
    scanChain lo hi ls =
      ls.flatten.filter (fun p => decide (lo ≤ p.1) && decide (p.1 ≤ hi)) := by
  induction ls with
  | nil => rfl
  | cons l ls' ih =>
    rw [List.flatten_cons] at h
    have hparts := List.pairwise_append.mp h
    simp only [scanChain]
    rw [scanLeaf_sorted lo hi l hparts.1]
    dsimp only
    rw [List.flatten_cons, List.filter_append]
    by_cases ha : l.any (fun p => decide (hi < p.1)) = true
    · rw [if_pos ha]
      have hnil : ls'.flatten.filter (fun p => decide (lo ≤ p.1) && decide (p.1 ≤ hi)) = [] := by
        rw [List.filter_eq_nil_iff]
        intro q hq
        obtain ⟨p, hpl, hpgt⟩ := List.any_eq_true.mp ha
        have hlt := hparts.2.2 p hpl q hq
        simp only [decide_eq_true_eq] at hpgt
        simp only [Bool.and_eq_true, decide_eq_true_eq, not_and]
        intro _
        omega
      rw [hnil, List.append_nil]
    · rw [if_neg ha]
      rw [ih hparts.2.1]

end BPlus

/-- C7: for bounds `lo ≤ hi`, on a well-formed tree `range_search`
descends to the first leaf that can contain `lo`, walks the leaf chain,
and returns exactly the stored pairs whose key lies in `[lo, hi]`, in
strictly ascending key order. -/
theorem bplus_range_search_exact (t : BPlus.Tree) (lo hi : Nat)
    (hwf : BPlus.wfT none none t = true) (hlh : lo ≤ hi) :
    BPlus.rangeSearch t lo hi =
      (BPlus.allEntries t).filter (fun p => decide (lo ≤ p.1) && decide (p.1 ≤ hi)) ∧
    List.Pairwise (fun p q : Nat × Nat => p.1 < q.1) (BPlus.rangeSearch t lo hi) := by
  have hs := (BPlus.wfT_entries none none t hwf).2
  have hsplit : (BPlus.leavesOf t).flatten =
      ((BPlus.leavesOf t).take (BPlus.descLeafPos t lo)).flatten ++
        ((BPlus.leavesOf t).drop (BPlus.descLeafPos t lo)).flatten := by
    rw [← List.flatten_append, List.take_append_drop]
  have hparts := List.pairwise_append.mp (hsplit ▸ hs)
  have hscan := BPlus.scanChain_sorted lo hi _ hparts.2.1
  have hpre := BPlus.descent_prefix t lo none none hwf
  have hprefilter : (((BPlus.leavesOf t).take (BPlus.descLeafPos t lo)).flatten.filter
      (fun p => decide (lo ≤ p.1) && decide (p.1 ≤ hi))) = [] := by
    rw [List.filter_eq_nil_iff]
    intro p hp
    have := hpre p hp
    simp only [Bool.and_eq_true, decide_eq_true_eq, not_and]
    intro hc
    omega
  constructor
  · unfold BPlus.rangeSearch BPlus.allEntries
    rw [hscan]
    conv_rhs => rw [hsplit]
    rw [List.filter_append, hprefilter, List.nil_append]
  · unfold BPlus.rangeSearch
    rw [hscan]
    exact hparts.2.1.filter _

/-- Witness for C7 on a two-leaf tree with keys 1, 2, 3, 5 and the range
`[2, 5]`. -/
theorem bplus_range_search_exact_witness :
    BPlus.wfT none none (BPlus.Tree.node (BPlus.Tree.leaf [(1, 10), (2, 20)])
        [(3, BPlus.Tree.leaf [(3, 30), (5, 50)])]) = true ∧
    2 ≤ 5 ∧
    BPlus.rangeSearch (BPlus.Tree.node (BPlus.Tree.leaf [(1, 10), (2, 20)])
        [(3, BPlus.Tree.leaf [(3, 30), (5, 50)])]) 2 5 =
      (BPlus.allEntries (BPlus.Tree.node (BPlus.Tree.leaf [(1, 10), (2, 20)])
        [(3, BPlus.Tree.leaf [(3, 30), (5, 50)])])).filter
          (fun p => decide (2 ≤ p.1) && decide (p.1 ≤ 5)) := by
  have hwf : BPlus.wfT none none (BPlus.Tree.node (BPlus.Tree.leaf [(1, 10), (2, 20)])
      [(3, BPlus.Tree.leaf [(3, 30), (5, 50)])]) = true := by
    simp [BPlus.wfT, BPlus.wfL, BPlus.chainLt, BPlus.inLoB, BPlus.inHiB, BPlus.headKeyOr]
  exact ⟨hwf, by omega,
    (bplus_range_search_exact _ 2 5 hwf (by omega)).1⟩

-- ===================================================================
-- Avl : lemmas
-- ===================================================================

namespace Avl

theorem neg_one_le_realH : ∀ (t : ATree), -1 ≤ realH t := by
  intro t
  induction t with
  | nil => simp [realH]
  | node l i h d r ihl ihr => simp only [realH]; omega

theorem good_hgt (lo hi : Option Nat) (t : ATree) (hg : good lo hi t = true) :
    hgt t = realH t := by
  cases t with
  | nil => rfl
  | node l i h d r =>
    simp only [good, Bool.and_eq_true, decide_eq_true_eq] at hg
    simp only [hgt, realH]
    exact hg.1.1.1.1.1

theorem loOkB_trans {lo : Option Nat} {x y : Nat} (h1 : loOkB lo x = true)
    (h2 : x < y) : loOkB lo y = true := by
  cases lo with
  | none => rfl
  | some a => simp only [loOkB, decide_eq_true_eq] at h1 ⊢; omega

theorem hiOkB_trans {hi : Option Nat} {x y : Nat} (h1 : hiOkB hi y = true)
    (h2 : x < y) : hiOkB hi x = true := by
  cases hi with
  | none => rfl
  | some b => simp only [hiOkB, decide_eq_true_eq] at h1 ⊢; omega

theorem good_lo_mono : ∀ (t : ATree) (lo lo' hi : Option Nat),
    (∀ x, loOkB lo x = true → loOkB lo' x = true) →
    good lo hi t = true → good lo' hi t = true := by
  intro t
  induction t with
  | nil => intro lo lo' hi _ _; rfl
  | node l i h d r ihl ihr =>
    intro lo lo' hi himp hg
    simp only [good, Bool.and_eq_true] at hg ⊢
    obtain ⟨⟨⟨⟨⟨h1, h2⟩, h3⟩, h4⟩, h5⟩, h6⟩ := hg
    exact ⟨⟨⟨⟨⟨h1, h2⟩, himp i h3⟩, h4⟩, ihl lo lo' (some i) himp h5⟩, h6⟩

theorem good_hi_mono : ∀ (t : ATree) (lo hi hi' : Option Nat),
    (∀ x, hiOkB hi x = true → hiOkB hi' x = true) →
    good lo hi t = true → good lo hi' t = true := by
  intro t
  induction t with
  | nil => intro lo hi hi' _ _; rfl
  | node l i h d r ihl ihr =>
    intro lo hi hi' himp hg
    simp only [good, Bool.and_eq_true] at hg ⊢
    obtain ⟨⟨⟨⟨⟨h1, h2⟩, h3⟩, h4⟩, h5⟩, h6⟩ := hg
    exact ⟨⟨⟨⟨⟨h1, h2⟩, h3⟩, himp i h4⟩, h5⟩, ihr (some i) hi hi' himp h6⟩

theorem rebal_id (l r : ATree) (i : Nat) (h : Int) (d : Nat)
    (h1 : hgt l = realH l) (h2 : hgt r = realH r)
    (hb : (realH l - realH r).natAbs ≤ 1) :
    rebal (ATree.node l i h d r) = ATree.node l i h d r := by
  simp only [rebal, bf, h1, h2]
  rw [if_neg (by omega), if_neg (by omega)]

theorem hgt_nil : hgt ATree.nil = -1 := rfl

theorem hgt_node (l : ATree) (i : Nat) (h : Int) (d : Nat) (r : ATree) :
    hgt (ATree.node l i h d r) = h := rfl

theorem realH_nil : realH ATree.nil = -1 := rfl

theorem realH_node (l : ATree) (i : Nat) (h : Int) (d : Nat) (r : ATree) :
    realH (ATree.node l i h d r) = max (realH l) (realH r) + 1 := rfl

theorem updH_node (l : ATree) (i : Nat) (h : Int) (d : Nat) (r : ATree) :
    updH (ATree.node l i h d r) = ATree.node l i (max (hgt l) (hgt r) + 1) d r := rfl

theorem rotR_node (a : ATree) (y : Nat) (hy : Int) (dy : Nat) (b : ATree)
    (i : Nat) (h : Int) (d : Nat) (r : ATree) :
    rotR (ATree.node (ATree.node a y hy dy b) i h d r)
      = updH (ATree.node a y hy dy (updH (ATree.node b i h d r))) := rfl

theorem rotL_node (l : ATree) (i : Nat) (h : Int) (d : Nat)
    (a : ATree) (y : Nat) (hy : Int) (dy : Nat) (b : ATree) :
    rotL (ATree.node l i h d (ATree.node a y hy dy b))
      = updH (ATree.node (updH (ATree.node l i h d a)) y hy dy b) := rfl

theorem good_node (lo hi : Option Nat) (l : ATree) (i : Nat) (h : Int) (d : Nat) (r : ATree) :
    good lo hi (ATree.node l i h d r)
      = (decide (h = max (realH l) (realH r) + 1) &&
         decide ((realH l - realH r).natAbs ≤ 1) &&
         loOkB lo i && hiOkB hi i && good lo (some i) l && good (some i) hi r) := rfl

theorem loOkB_some (a x : Nat) : loOkB (some a) x = true ↔ a < x := by
  simp [loOkB]

theorem hiOkB_some (b x : Nat) : hiOkB (some b) x = true ↔ x < b := by
  simp [hiOkB]

theorem loOkB_none (x : Nat) : loOkB none x = true := rfl

theorem hiOkB_none (x : Nat) : hiOkB none x = true := rfl

theorem rebal_spec (lo hi : Option Nat) (l r : ATree) (i d : Nat) (H : Int)
    (hgl : good lo (some i) l = true) (hgr : good (some i) hi r = true)
    (hlo : loOkB lo i = true) (hhi : hiOkB hi i = true)
    (hH : H = max (realH l) (realH r) + 1)
    (hbal : (realH l - realH r).natAbs ≤ 2) :
    good lo hi (rebal (ATree.node l i H d r)) = true ∧
    max (realH l) (realH r) ≤ realH (rebal (ATree.node l i H d r)) ∧
    realH (rebal (ATree.node l i H d r)) ≤ max (realH l) (realH r) + 1 := by
  have el := good_hgt _ _ _ hgl
  have er := good_hgt _ _ _ hgr
  by_cases hb2 : realH l - realH r > 1
  · -- the node is left-heavy by exactly two
    cases l with
    | nil =>
      exfalso
      have := neg_one_le_realH r
      rw [realH_nil] at hb2
      omega
    | node ll li lh ld lr =>
      rw [good_node, Bool.and_eq_true, Bool.and_eq_true, Bool.and_eq_true,
        Bool.and_eq_true, Bool.and_eq_true, decide_eq_true_eq, decide_eq_true_eq] at hgl
      obtain ⟨⟨⟨⟨⟨hlh, hlb⟩, hllo⟩, hlhi⟩, hgll⟩, hglr⟩ := hgl
      have ell := good_hgt _ _ _ hgll
      have elr := good_hgt _ _ _ hglr
      rw [hgt_node] at el
      rw [realH_node] at hb2 hH hbal
      have hliI : li < i := (hiOkB_some i li).mp hlhi
      by_cases hbfl : realH ll - realH lr < 0
      · -- LR case: the left child leans right, double rotation
        cases lr with
        | nil =>
          exfalso
          have := neg_one_le_realH ll
          rw [realH_nil] at hbfl
          omega
        | node a y hy dy bb =>
          rw [good_node, Bool.and_eq_true, Bool.and_eq_true, Bool.and_eq_true,
            Bool.and_eq_true, Bool.and_eq_true, decide_eq_true_eq, decide_eq_true_eq] at hglr
          obtain ⟨⟨⟨⟨⟨hyh, hyb⟩, hylo⟩, hyhi⟩, hga⟩, hgbb⟩ := hglr
          have ea := good_hgt _ _ _ hga
          have ebb := good_hgt _ _ _ hgbb
          rw [hgt_node] at elr
          rw [realH_node] at hlh hlb hb2 hH hbal hbfl
          have hliy : li < y := (loOkB_some li y).mp hylo
          have hyI : y < i := (hiOkB_some i y).mp hyhi
          have hstep : rebal (ATree.node (ATree.node ll li lh ld (ATree.node a y hy dy bb)) i H d r)
              = ATree.node (ATree.node ll li (max (hgt ll) (hgt a) + 1) ld a) y
                  (max (max (hgt ll) (hgt a) + 1) (max (hgt bb) (hgt r) + 1) + 1) dy
                  (ATree.node bb i (max (hgt bb) (hgt r) + 1) d r) := by
            simp only [rebal, bf, hgt_node]
            rw [if_pos (by omega), if_pos (by omega)]
            simp only [rotL_node, updH_node, hgt_node, rotR_node]
          rw [hstep]
          have hLoY : loOkB lo y = true := loOkB_trans hllo hliy
          have hHiY : hiOkB hi y = true := hiOkB_trans hhi hyI
          have hHiLi : hiOkB (some y) li = true := (hiOkB_some y li).mpr hliy
          have hLoI : loOkB (some y) i = true := (loOkB_some y i).mpr hyI
          refine ⟨?_, ?_, ?_⟩
          · simp only [good_node, realH_node, Bool.and_eq_true, decide_eq_true_eq]
            repeat' apply And.intro
            all_goals first
              | assumption
              | omega
          · simp only [realH_node]
            omega
          · simp only [realH_node]
            omega
      · -- LL case: single right rotation
        have hstep : rebal (ATree.node (ATree.node ll li lh ld lr) i H d r)
            = ATree.node ll li (max (hgt ll) (max (hgt lr) (hgt r) + 1) + 1) ld
                (ATree.node lr i (max (hgt lr) (hgt r) + 1) d r) := by
          simp only [rebal, bf, hgt_node]
          rw [if_pos (by omega), if_neg (by omega)]
          simp only [rotR_node, updH_node, hgt_node]
        rw [hstep]
        have hHiLi : hiOkB hi li = true := hiOkB_trans hhi hliI
        have hLoI : loOkB (some li) i = true := (loOkB_some li i).mpr hliI
        refine ⟨?_, ?_, ?_⟩
        · simp only [good_node, realH_node, Bool.and_eq_true, decide_eq_true_eq]
          repeat' apply And.intro
          all_goals first
            | assumption
            | omega
        · simp only [realH_node]
          omega
        · simp only [realH_node]
          omega
  · by_cases hb3 : realH l - realH r < -1
    · -- the node is right-heavy by exactly two
      cases r with
      | nil =>
        exfalso
        have := neg_one_le_realH l
        rw [realH_nil] at hb3
        omega
      | node rl ri rh rd rr =>
        rw [good_node, Bool.and_eq_true, Bool.and_eq_true, Bool.and_eq_true,
          Bool.and_eq_true, Bool.and_eq_true, decide_eq_true_eq, decide_eq_true_eq] at hgr
        obtain ⟨⟨⟨⟨⟨hrh, hrb⟩, hrlo⟩, hrhi⟩, hgrl⟩, hgrr⟩ := hgr
        have erl := good_hgt _ _ _ hgrl
        have err := good_hgt _ _ _ hgrr
        rw [hgt_node] at er
        rw [realH_node] at hb3 hH hbal
        have hIri : i < ri := (loOkB_some i ri).mp hrlo
        by_cases hbfr : realH rl - realH rr > 0
        · -- RL case: the right child leans left, double rotation
          cases rl with
          | nil =>
            exfalso
            have := neg_one_le_realH rr
            rw [realH_nil] at hbfr
            omega
          | node a y hy dy bb =>
            rw [good_node, Bool.and_eq_true, Bool.and_eq_true, Bool.and_eq_true,
              Bool.and_eq_true, Bool.and_eq_true, decide_eq_true_eq, decide_eq_true_eq] at hgrl
            obtain ⟨⟨⟨⟨⟨hyh, hyb⟩, hylo⟩, hyhi⟩, hga⟩, hgbb⟩ := hgrl
            have ea := good_hgt _ _ _ hga
            have ebb := good_hgt _ _ _ hgbb
            rw [hgt_node] at erl
            rw [realH_node] at hrh hrb hb3 hH hbal hbfr
            have hIy : i < y := (loOkB_some i y).mp hylo
            have hyRi : y < ri := (hiOkB_some ri y).mp hyhi
            have hstep : rebal (ATree.node l i H d (ATree.node (ATree.node a y hy dy bb) ri rh rd rr))
                = ATree.node (ATree.node l i (max (hgt l) (hgt a) + 1) d a) y
                    (max (max (hgt l) (hgt a) + 1) (max (hgt bb) (hgt rr) + 1) + 1) dy
                    (ATree.node bb ri (max (hgt bb) (hgt rr) + 1) rd rr) := by
              simp only [rebal, bf, hgt_node]
              rw [if_neg (by omega), if_pos (by omega), if_pos (by omega)]
              simp only [rotR_node, updH_node, hgt_node, rotL_node]
            rw [hstep]
            have hLoY : loOkB lo y = true := loOkB_trans hlo hIy
            have hHiY : hiOkB hi y = true := hiOkB_trans hrhi hyRi
            have hHiI : hiOkB (some y) i = true := (hiOkB_some y i).mpr hIy
            have hLoRi : loOkB (some y) ri = true := (loOkB_some y ri).mpr hyRi
            refine ⟨?_, ?_, ?_⟩
            · simp only [good_node, realH_node, Bool.and_eq_true, decide_eq_true_eq]
              repeat' apply And.intro
              all_goals first
                | assumption
                | omega
            · simp only [realH_node]
              omega
            · simp only [realH_node]
              omega
        · -- RR case: single left rotation
          have hstep : rebal (ATree.node l i H d (ATree.node rl ri rh rd rr))
              = ATree.node (ATree.node l i (max (hgt l) (hgt rl) + 1) d rl) ri
                  (max (max (hgt l) (hgt rl) + 1) (hgt rr) + 1) rd rr := by
            simp only [rebal, bf, hgt_node]
            rw [if_neg (by omega), if_pos (by omega), if_neg (by omega)]
            simp only [rotL_node, updH_node, hgt_node]
          rw [hstep]
          have hLoRi : loOkB lo ri = true := loOkB_trans hlo hIri
          have hHiI : hiOkB (some ri) i = true := (hiOkB_some ri i).mpr hIri
          refine ⟨?_, ?_, ?_⟩
          · simp only [good_node, realH_node, Bool.and_eq_true, decide_eq_true_eq]
            repeat' apply And.intro
            all_goals first
              | assumption
              | omega
          · simp only [realH_node]
            omega
          · simp only [realH_node]
            omega
    · -- balanced already: no rotation
      have hstep : rebal (ATree.node l i H d r) = ATree.node l i H d r :=
        rebal_id l r i H d el er (by omega)
      rw [hstep]
      refine ⟨?_, ?_, ?_⟩
      · rw [good_node]
        simp only [Bool.and_eq_true, decide_eq_true_eq]
        exact ⟨⟨⟨⟨⟨by omega, by omega⟩, hlo⟩, hhi⟩, hgl⟩, hgr⟩
      · rw [realH_node]
        omega
      · rw [realH_node]

theorem insRec_good (nid doff : Nat) : ∀ (t : ATree) (lo hi : Option Nat),
    good lo hi t = true → loOkB lo nid = true → hiOkB hi nid = true →
    good lo hi (insRec t nid doff) = true ∧
    realH t ≤ realH (insRec t nid doff) ∧
    realH (insRec t nid doff) ≤ realH t + 1 := by
  intro t
  induction t with
  | nil =>
    intro lo hi hg hlo hhi
    refine ⟨?_, ?_, ?_⟩
    · simp only [insRec, good_node, realH_nil, Bool.and_eq_true, decide_eq_true_eq]
      exact ⟨⟨⟨⟨⟨by omega, by omega⟩, hlo⟩, hhi⟩, rfl⟩, rfl⟩
    · simp only [insRec, realH_node, realH_nil]
      omega
    · simp only [insRec, realH_node, realH_nil]
      omega
  | node l i h d r ihl ihr =>
    intro lo hi hg hlo hhi
    rw [good_node, Bool.and_eq_true, Bool.and_eq_true, Bool.and_eq_true,
      Bool.and_eq_true, Bool.and_eq_true, decide_eq_true_eq, decide_eq_true_eq] at hg
    obtain ⟨⟨⟨⟨⟨hh, hb⟩, hnlo⟩, hnhi⟩, hgl⟩, hgr⟩ := hg
    have el := good_hgt _ _ _ hgl
    have er := good_hgt _ _ _ hgr
    by_cases hcmp : nid < i
    · have hins : insRec (ATree.node l i h d r) nid doff
          = rebal (updH (ATree.node (insRec l nid doff) i h d r)) := by
        simp only [insRec]
        rw [if_pos hcmp]
      obtain ⟨hg1, hw1, hw2⟩ := ihl lo (some i) hgl hlo ((hiOkB_some i nid).mpr hcmp)
      have el2 := good_hgt _ _ _ hg1
      have hupd : updH (ATree.node (insRec l nid doff) i h d r)
          = ATree.node (insRec l nid doff) i
              (max (realH (insRec l nid doff)) (realH r) + 1) d r := by
        rw [updH_node, el2, er]
      rw [hins, hupd]
      obtain ⟨G, W1, W2⟩ :=
        rebal_spec lo hi (insRec l nid doff) r i d _ hg1 hgr hnlo hnhi rfl (by omega)
      refine ⟨G, ?_, ?_⟩
      · by_cases hsmall : (realH (insRec l nid doff) - realH r).natAbs ≤ 1
        · rw [rebal_id _ r i _ d el2 er hsmall, realH_node, realH_node]
          omega
        · rw [realH_node]
          omega
      · by_cases hsmall : (realH (insRec l nid doff) - realH r).natAbs ≤ 1
        · rw [rebal_id _ r i _ d el2 er hsmall, realH_node, realH_node]
          omega
        · rw [realH_node]
          omega
    · by_cases hcmp2 : i < nid
      · have hins : insRec (ATree.node l i h d r) nid doff
            = rebal (updH (ATree.node l i h d (insRec r nid doff))) := by
          simp only [insRec]
          rw [if_neg hcmp, if_pos hcmp2]
        obtain ⟨hg1, hw1, hw2⟩ := ihr (some i) hi hgr ((loOkB_some i nid).mpr hcmp2) hhi
        have er2 := good_hgt _ _ _ hg1
        have hupd : updH (ATree.node l i h d (insRec r nid doff))
            = ATree.node l i
                (max (realH l) (realH (insRec r nid doff)) + 1) d (insRec r nid doff) := by
          rw [updH_node, el, er2]
        rw [hins, hupd]
        obtain ⟨G, W1, W2⟩ :=
          rebal_spec lo hi l (insRec r nid doff) i d _ hgl hg1 hnlo hnhi rfl (by omega)
        refine ⟨G, ?_, ?_⟩
        · by_cases hsmall : (realH l - realH (insRec r nid doff)).natAbs ≤ 1
          · rw [rebal_id l _ i _ d el er2 hsmall, realH_node, realH_node]
            omega
          · rw [realH_node]
            omega
        · by_cases hsmall : (realH l - realH (insRec r nid doff)).natAbs ≤ 1
          · rw [rebal_id l _ i _ d el er2 hsmall, realH_node, realH_node]
            omega
          · rw [realH_node]
            omega
      · have hins : insRec (ATree.node l i h d r) nid doff = ATree.node l i h d r := by
          simp only [insRec]
          rw [if_neg hcmp, if_neg hcmp2]
        rw [hins]
        refine ⟨?_, le_refl _, by omega⟩
        rw [good_node]
        simp only [Bool.and_eq_true, decide_eq_true_eq]
        exact ⟨⟨⟨⟨⟨hh, hb⟩, hnlo⟩, hnhi⟩, hgl⟩, hgr⟩

theorem minNode_bounds : ∀ (t : ATree) (lo hi : Option Nat),
    good lo hi t = true → t ≠ ATree.nil →
    loOkB lo (minNode t).1 = true ∧ hiOkB hi (minNode t).1 = true := by
  intro t
  induction t with
  | nil => intro lo hi _ hne; exact absurd rfl hne
  | node l i h d r ihl ihr =>
    intro lo hi hg _
    rw [good_node, Bool.and_eq_true, Bool.and_eq_true, Bool.and_eq_true,
      Bool.and_eq_true, Bool.and_eq_true, decide_eq_true_eq, decide_eq_true_eq] at hg
    obtain ⟨⟨⟨⟨⟨hh, hb⟩, hnlo⟩, hnhi⟩, hgl⟩, hgr⟩ := hg
    cases l with
    | nil =>
      simp only [minNode]
      exact ⟨hnlo, hnhi⟩
    | node a y hy dy bb =>
      simp only [minNode]
      obtain ⟨h1, h2⟩ := ihl lo (some i) hgl (by simp)
      refine ⟨h1, hiOkB_trans hnhi ((hiOkB_some i _).mp h2)⟩

theorem remove_min_spec : ∀ (t : ATree) (lo hi : Option Nat),
    good lo hi t = true → t ≠ ATree.nil →
    good (some (minNode t).1) hi (remRec t (minNode t).1) = true ∧
    realH t - 1 ≤ realH (remRec t (minNode t).1) ∧
    realH (remRec t (minNode t).1) ≤ realH t := by
  intro t
  induction t with
  | nil => intro lo hi _ hne; exact absurd rfl hne
  | node l i h d r ihl ihr =>
    intro lo hi hg _
    rw [good_node, Bool.and_eq_true, Bool.and_eq_true, Bool.and_eq_true,
      Bool.and_eq_true, Bool.and_eq_true, decide_eq_true_eq, decide_eq_true_eq] at hg
    obtain ⟨⟨⟨⟨⟨hh, hb⟩, hnlo⟩, hnhi⟩, hgl⟩, hgr⟩ := hg
    have el := good_hgt _ _ _ hgl
    have er := good_hgt _ _ _ hgr
    cases l with
    | nil =>
      simp only [minNode, remRec]
      rw [if_neg (by omega), if_neg (by omega), if_pos trivial]
      refine ⟨hgr, ?_, ?_⟩
      · rw [realH_node, realH_nil]
        have := neg_one_le_realH r
        omega
      · rw [realH_node, realH_nil]
        have := neg_one_le_realH r
        omega
    | node a y hy dy bb =>
      obtain ⟨hbl, hbh⟩ := minNode_bounds (ATree.node a y hy dy bb) lo (some i) hgl (by simp)
      have hmi : (minNode (ATree.node a y hy dy bb)).1 < i := (hiOkB_some i _).mp hbh
      obtain ⟨G1, Wa, Wb⟩ := ihl lo (some i) hgl (by simp)
      have el2 := good_hgt _ _ _ G1
      have hrem : remRec (ATree.node (ATree.node a y hy dy bb) i h d r)
            (minNode (ATree.node (ATree.node a y hy dy bb) i h d r)).1
          = rebal (updH (ATree.node
              (remRec (ATree.node a y hy dy bb) (minNode (ATree.node a y hy dy bb)).1)
              i h d r)) := by
        simp only [minNode, remRec]
        rw [if_pos hmi]
      have hmin : minNode (ATree.node (ATree.node a y hy dy bb) i h d r)
          = minNode (ATree.node a y hy dy bb) := by
        simp only [minNode]
      rw [hrem, hmin, updH_node, el2, er]
      obtain ⟨G, W1, W2⟩ := rebal_spec (some (minNode (ATree.node a y hy dy bb)).1) hi
        (remRec (ATree.node a y hy dy bb) (minNode (ATree.node a y hy dy bb)).1) r i d _
        G1 hgr ((loOkB_some _ i).mpr hmi) hnhi rfl (by omega)
      refine ⟨G, ?_, ?_⟩
      · by_cases hsmall : (realH (remRec (ATree.node a y hy dy bb)
            (minNode (ATree.node a y hy dy bb)).1) - realH r).natAbs ≤ 1
        · rw [rebal_id _ r i _ d el2 er hsmall]
          simp only [realH_node] at Wa Wb hb ⊢
          omega
        · simp only [realH_node] at Wa Wb hb ⊢
          omega
      · by_cases hsmall : (realH (remRec (ATree.node a y hy dy bb)
            (minNode (ATree.node a y hy dy bb)).1) - realH r).natAbs ≤ 1
        · rw [rebal_id _ r i _ d el2 er hsmall]
          simp only [realH_node] at Wa Wb hb ⊢
          omega
        · simp only [realH_node] at Wa Wb hb ⊢
          omega

theorem remRec_good (rid : Nat) : ∀ (t : ATree) (lo hi : Option Nat),
    good lo hi t = true →
    good lo hi (remRec t rid) = true ∧
    realH t - 1 ≤ realH (remRec t rid) ∧ realH (remRec t rid) ≤ realH t := by
  intro t
  induction t with
  | nil =>
    intro lo hi hg
    exact ⟨hg, by rw [remRec]; omega, by rw [remRec]⟩
  | node l i h d r ihl ihr =>
    intro lo hi hg
    rw [good_node, Bool.and_eq_true, Bool.and_eq_true, Bool.and_eq_true,
      Bool.and_eq_true, Bool.and_eq_true, decide_eq_true_eq, decide_eq_true_eq] at hg
    obtain ⟨⟨⟨⟨⟨hh, hb⟩, hnlo⟩, hnhi⟩, hgl⟩, hgr⟩ := hg
    have el := good_hgt _ _ _ hgl
    have er := good_hgt _ _ _ hgr
    by_cases hcmp : rid < i
    · have hrem : remRec (ATree.node l i h d r) rid
          = rebal (updH (ATree.node (remRec l rid) i h d r)) := by
        simp only [remRec]
        rw [if_pos hcmp]
      obtain ⟨G1, Wa, Wb⟩ := ihl lo (some i) hgl
      have el2 := good_hgt _ _ _ G1
      rw [hrem, updH_node, el2, er]
      obtain ⟨G, W1, W2⟩ :=
        rebal_spec lo hi (remRec l rid) r i d _ G1 hgr hnlo hnhi rfl (by omega)
      refine ⟨G, ?_, ?_⟩
      · by_cases hsmall : (realH (remRec l rid) - realH r).natAbs ≤ 1
        · rw [rebal_id _ r i _ d el2 er hsmall]
          simp only [realH_node]
          omega
        · simp only [realH_node]
          omega
      · by_cases hsmall : (realH (remRec l rid) - realH r).natAbs ≤ 1
        · rw [rebal_id _ r i _ d el2 er hsmall]
          simp only [realH_node]
          omega
        · simp only [realH_node]
          omega
    · by_cases hcmp2 : i < rid
      · have hrem : remRec (ATree.node l i h d r) rid
            = rebal (updH (ATree.node l i h d (remRec r rid))) := by
          simp only [remRec]
          rw [if_neg hcmp, if_pos hcmp2]
        obtain ⟨G1, Wa, Wb⟩ := ihr (some i) hi hgr
        have er2 := good_hgt _ _ _ G1
        rw [hrem, updH_node, el, er2]
        obtain ⟨G, W1, W2⟩ :=
          rebal_spec lo hi l (remRec r rid) i d _ hgl G1 hnlo hnhi rfl (by omega)
        refine ⟨G, ?_, ?_⟩
        · by_cases hsmall : (realH l - realH (remRec r rid)).natAbs ≤ 1
          · rw [rebal_id l _ i _ d el er2 hsmall]
            simp only [realH_node]
            omega
          · simp only [realH_node]
            omega
        · by_cases hsmall : (realH l - realH (remRec r rid)).natAbs ≤ 1
          · rw [rebal_id l _ i _ d el er2 hsmall]
            simp only [realH_node]
            omega
          · simp only [realH_node]
            omega
      · cases l with
        | nil =>
          have hrem : remRec (ATree.node ATree.nil i h d r) rid = r := by
            simp only [remRec]
            rw [if_neg hcmp, if_neg hcmp2, if_pos trivial]
          rw [hrem]
          refine ⟨?_, ?_, ?_⟩
          · refine good_lo_mono r (some i) lo hi (fun x hx => ?_) hgr
            exact loOkB_trans hnlo ((loOkB_some i x).mp hx)
          · rw [realH_node, realH_nil]
            have := neg_one_le_realH r
            omega
          · rw [realH_node, realH_nil]
            have := neg_one_le_realH r
            omega
        | node la ly lhy ldy lb =>
          cases r with
          | nil =>
            have hrem : remRec (ATree.node (ATree.node la ly lhy ldy lb) i h d ATree.nil) rid
                = ATree.node la ly lhy ldy lb := by
              simp only [remRec]
              rw [if_neg hcmp, if_neg hcmp2, if_neg (by simp), if_pos trivial]
            rw [hrem]
            refine ⟨?_, ?_, ?_⟩
            · refine good_hi_mono _ lo (some i) hi (fun x hx => ?_) hgl
              exact hiOkB_trans hnhi ((hiOkB_some i x).mp hx)
            · simp only [realH_node, realH_nil] at *
              have := neg_one_le_realH la
              have := neg_one_le_realH lb
              omega
            · simp only [realH_node, realH_nil] at *
              have := neg_one_le_realH la
              have := neg_one_le_realH lb
              omega
          | node ra ry rhy rdy rb =>
            obtain ⟨hbl, hbh⟩ := minNode_bounds (ATree.node ra ry rhy rdy rb)
              (some i) hi hgr (by simp)
            have hmi : i < (minNode (ATree.node ra ry rhy rdy rb)).1 :=
              (loOkB_some i _).mp hbl
            obtain ⟨G1, Wa, Wb⟩ := remove_min_spec (ATree.node ra ry rhy rdy rb)
              (some i) hi hgr (by simp)
            have er2 := good_hgt _ _ _ G1
            have hLn : realH (ATree.node la ly lhy ldy lb)
                = max (realH la) (realH lb) + 1 := realH_node la ly lhy ldy lb
            have hRn : realH (ATree.node ra ry rhy rdy rb)
                = max (realH ra) (realH rb) + 1 := realH_node ra ry rhy rdy rb
            have hgl2 : good lo (some (minNode (ATree.node ra ry rhy rdy rb)).1)
                (ATree.node la ly lhy ldy lb) = true := by
              refine good_hi_mono _ lo (some i) _ (fun x hx => ?_) hgl
              exact (hiOkB_some _ x).mpr (Nat.lt_trans ((hiOkB_some i x).mp hx) hmi)
            have hrem : remRec (ATree.node (ATree.node la ly lhy ldy lb) i h d
                  (ATree.node ra ry rhy rdy rb)) rid
                = rebal (updH (ATree.node (ATree.node la ly lhy ldy lb)
                    (minNode (ATree.node ra ry rhy rdy rb)).1 h
                    (minNode (ATree.node ra ry rhy rdy rb)).2
                    (remRec (ATree.node ra ry rhy rdy rb)
                      (minNode (ATree.node ra ry rhy rdy rb)).1))) := by
              simp only [remRec]
              rw [if_neg hcmp, if_neg hcmp2, if_neg (by simp), if_neg (by simp)]
            rw [hrem, updH_node, el, er2]
            obtain ⟨G, W1, W2⟩ := rebal_spec lo hi (ATree.node la ly lhy ldy lb)
              (remRec (ATree.node ra ry rhy rdy rb)
                (minNode (ATree.node ra ry rhy rdy rb)).1)
              (minNode (ATree.node ra ry rhy rdy rb)).1
              (minNode (ATree.node ra ry rhy rdy rb)).2 _
              hgl2 G1 (loOkB_trans hnlo hmi) hbh rfl
              (by simp only [realH_node] at Wa Wb hb ⊢; omega)
            refine ⟨G, ?_, ?_⟩
            · by_cases hsmall : (realH (ATree.node la ly lhy ldy lb) -
                  realH (remRec (ATree.node ra ry rhy rdy rb)
                    (minNode (ATree.node ra ry rhy rdy rb)).1)).natAbs ≤ 1
              · rw [rebal_id _ _ _ _ _ el er2 hsmall]
                simp only [realH_node] at Wa Wb hb ⊢
                omega
              · simp only [realH_node] at Wa Wb hb W1 W2 ⊢
                omega
            · by_cases hsmall : (realH (ATree.node la ly lhy ldy lb) -
                  realH (remRec (ATree.node ra ry rhy rdy rb)
                    (minNode (ATree.node ra ry rhy rdy rb)).1)).natAbs ≤ 1
              · rw [rebal_id _ _ _ _ _ el er2 hsmall]
                simp only [realH_node] at Wa Wb hb ⊢
                omega
              · simp only [realH_node] at Wa Wb hb W1 W2 ⊢
                omega

theorem good_balB : ∀ (t : ATree) (lo hi : Option Nat),
    good lo hi t = true → balB t = true := by
  intro t
  induction t with
  | nil => intro lo hi _; rfl
  | node l i h d r ihl ihr =>
    intro lo hi hg
    rw [good_node, Bool.and_eq_true, Bool.and_eq_true, Bool.and_eq_true,
      Bool.and_eq_true, Bool.and_eq_true, decide_eq_true_eq, decide_eq_true_eq] at hg
    obtain ⟨⟨⟨⟨⟨hh, hb⟩, hnlo⟩, hnhi⟩, hgl⟩, hgr⟩ := hg
    simp only [balB, Bool.and_eq_true, decide_eq_true_eq]
    exact ⟨⟨hb, ihl lo (some i) hgl⟩, ihr (some i) hi hgr⟩

theorem good_inorder : ∀ (t : ATree) (lo hi : Option Nat), good lo hi t = true →
    List.Pairwise (fun a b => a < b) (inorderIds t) ∧
    ∀ x ∈ inorderIds t, loOkB lo x = true ∧ hiOkB hi x = true := by
  intro t
  induction t with
  | nil =>
    intro lo hi _
    exact ⟨List.Pairwise.nil, by intro x hx; simp [inorderIds] at hx⟩
  | node l i h d r ihl ihr =>
    intro lo hi hg
    rw [good_node, Bool.and_eq_true, Bool.and_eq_true, Bool.and_eq_true,
      Bool.and_eq_true, Bool.and_eq_true, decide_eq_true_eq, decide_eq_true_eq] at hg
    obtain ⟨⟨⟨⟨⟨hh, hb⟩, hnlo⟩, hnhi⟩, hgl⟩, hgr⟩ := hg
    obtain ⟨hpl, hml⟩ := ihl lo (some i) hgl
    obtain ⟨hpr, hmr⟩ := ihr (some i) hi hgr
    simp only [inorderIds]
    constructor
    · rw [List.pairwise_append]
      refine ⟨hpl, ?_, ?_⟩
      · rw [List.pairwise_cons]
        refine ⟨fun b hb2 => (loOkB_some i b).mp (hmr b hb2).1, hpr⟩
      · intro a ha b hb2
        have hai : a < i := (hiOkB_some i a).mp (hml a ha).2
        rcases List.mem_cons.mp hb2 with hbi | hbr
        · omega
        · have := (loOkB_some i b).mp (hmr b hbr).1
          omega
    · intro x hx
      rcases List.mem_append.mp hx with hxl | hxc
      · exact ⟨(hml x hxl).1, hiOkB_trans hnhi ((hiOkB_some i x).mp (hml x hxl).2)⟩
      · rcases List.mem_cons.mp hxc with hxi | hxr
        · subst hxi; exact ⟨hnlo, hnhi⟩
        · exact ⟨loOkB_trans hnlo ((loOkB_some i x).mp (hmr x hxr).1), (hmr x hxr).2⟩

theorem offsB_node (n : Nat) (l : ATree) (i : Nat) (h : Int) (d : Nat) (r : ATree) :
    offsB n (ATree.node l i h d r) = (decide (d < n) && offsB n l && offsB n r) := rfl

theorem offsB_updH (n : Nat) (t : ATree) : offsB n (updH t) = offsB n t := by
  cases t <;> rfl

theorem offsB_rotR (n : Nat) (t : ATree) (h : offsB n t = true) :
    offsB n (rotR t) = true := by
  cases t with
  | nil => exact h
  | node l i hh d r =>
    cases l with
    | nil => exact h
    | node a y hy dy bb =>
      rw [rotR_node, offsB_updH]
      simp only [offsB_node, Bool.and_eq_true, decide_eq_true_eq, offsB_updH] at h ⊢
      tauto

theorem offsB_rotL (n : Nat) (t : ATree) (h : offsB n t = true) :
    offsB n (rotL t) = true := by
  cases t with
  | nil => exact h
  | node l i hh d r =>
    cases r with
    | nil => exact h
    | node a y hy dy bb =>
      rw [rotL_node, offsB_updH]
      simp only [offsB_node, Bool.and_eq_true, decide_eq_true_eq, offsB_updH] at h ⊢
      tauto

theorem offsB_rebal (n : Nat) (t : ATree) (h : offsB n t = true) :
    offsB n (rebal t) = true := by
  cases t with
  | nil => exact h
  | node l i hh d r =>
    simp only [rebal]
    split_ifs
    · refine offsB_rotR n _ ?_
      simp only [offsB_node, Bool.and_eq_true, decide_eq_true_eq] at h ⊢
      exact ⟨⟨h.1.1, by rw [offsB_rotL]; exact h.1.2⟩, h.2⟩
    · exact offsB_rotR n _ h
    · refine offsB_rotL n _ ?_
      simp only [offsB_node, Bool.and_eq_true, decide_eq_true_eq] at h ⊢
      exact ⟨⟨h.1.1, h.1.2⟩, by rw [offsB_rotR]; exact h.2⟩
    · exact offsB_rotL n _ h
    · exact h

theorem offsB_mono (n m : Nat) (hnm : n ≤ m) : ∀ (t : ATree),
    offsB n t = true → offsB m t = true := by
  intro t
  induction t with
  | nil => intro _; rfl
  | node l i h d r ihl ihr =>
    intro hg
    simp only [offsB_node, Bool.and_eq_true, decide_eq_true_eq] at hg ⊢
    exact ⟨⟨by omega, ihl hg.1.2⟩, ihr hg.2⟩

theorem insRec_offs (nid doff n : Nat) (hdn : doff < n) : ∀ (t : ATree),
    offsB n t = true → offsB n (insRec t nid doff) = true := by
  intro t
  induction t with
  | nil =>
    intro _
    simp only [insRec, offsB_node, offsB, Bool.and_eq_true, decide_eq_true_eq]
    exact ⟨⟨hdn, trivial⟩, trivial⟩
  | node l i h d r ihl ihr =>
    intro hg
    simp only [offsB_node, Bool.and_eq_true, decide_eq_true_eq] at hg
    simp only [insRec]
    split_ifs
    · refine offsB_rebal n _ ?_
      rw [offsB_updH]
      simp only [offsB_node, Bool.and_eq_true, decide_eq_true_eq]
      exact ⟨⟨hg.1.1, ihl hg.1.2⟩, hg.2⟩
    · refine offsB_rebal n _ ?_
      rw [offsB_updH]
      simp only [offsB_node, Bool.and_eq_true, decide_eq_true_eq]
      exact ⟨⟨hg.1.1, hg.1.2⟩, ihr hg.2⟩
    · simp only [offsB_node, Bool.and_eq_true, decide_eq_true_eq]
      exact ⟨⟨hg.1.1, hg.1.2⟩, hg.2⟩

theorem minNode_offs (n : Nat) : ∀ (t : ATree), offsB n t = true →
    t ≠ ATree.nil → (minNode t).2 < n := by
  intro t
  induction t with
  | nil => intro _ hne; exact absurd rfl hne
  | node l i h d r ihl ihr =>
    intro hg _
    simp only [offsB_node, Bool.and_eq_true, decide_eq_true_eq] at hg
    cases l with
    | nil => simp only [minNode]; exact hg.1.1
    | node a y hy dy bb =>
      simp only [minNode]
      exact ihl hg.1.2 (by simp)

theorem remRec_offs (n : Nat) : ∀ (t : ATree) (rid : Nat),
    offsB n t = true → offsB n (remRec t rid) = true := by
  intro t
  induction t with
  | nil => intro rid hg; exact hg
  | node l i h d r ihl ihr =>
    intro rid hg
    simp only [offsB_node, Bool.and_eq_true, decide_eq_true_eq] at hg
    simp only [remRec]
    split_ifs with hc1 hc2 hc3 hc4
    · refine offsB_rebal n _ ?_
      rw [offsB_updH]
      simp only [offsB_node, Bool.and_eq_true, decide_eq_true_eq]
      exact ⟨⟨hg.1.1, ihl rid hg.1.2⟩, hg.2⟩
    · refine offsB_rebal n _ ?_
      rw [offsB_updH]
      simp only [offsB_node, Bool.and_eq_true, decide_eq_true_eq]
      exact ⟨⟨hg.1.1, hg.1.2⟩, ihr rid hg.2⟩
    · exact hg.2
    · exact hg.1.2
    · refine offsB_rebal n _ ?_
      rw [offsB_updH]
      simp only [offsB_node, Bool.and_eq_true, decide_eq_true_eq]
      refine ⟨⟨minNode_offs n r hg.2 hc4, hg.1.2⟩, ihr _ hg.2⟩

theorem reachA_inv (st : AState) (h : ReachA st) :
    good none none st.tree = true ∧ offsB st.heap.length st.tree = true := by
  induction h with
  | init => exact ⟨rfl, rfl⟩
  | ins rec hst ih =>
    obtain ⟨hg, ho⟩ := ih
    constructor
    · exact (insRec_good rec.restaurant_id _ _ none none hg rfl rfl).1
    · simp only [insert, List.length_append, List.length_cons, List.length_nil]
      exact insRec_offs _ _ _ (by omega) _ (offsB_mono _ _ (by omega) _ ho)
  | rem rid hst ih =>
    obtain ⟨hg, ho⟩ := ih
    exact ⟨(remRec_good rid _ none none hg).1, remRec_offs _ _ rid ho⟩

theorem insRec_dup (nid doff : Nat) : ∀ (t : ATree) (lo hi : Option Nat),
    good lo hi t = true → containsT t nid = true → insRec t nid doff = t := by
  intro t
  induction t with
  | nil =>
    intro lo hi _ hc
    exact absurd hc (by simp [containsT])
  | node l i h d r ihl ihr =>
    intro lo hi hg hc
    rw [good_node, Bool.and_eq_true, Bool.and_eq_true, Bool.and_eq_true,
      Bool.and_eq_true, Bool.and_eq_true, decide_eq_true_eq, decide_eq_true_eq] at hg
    obtain ⟨⟨⟨⟨⟨hh, hb⟩, hnlo⟩, hnhi⟩, hgl⟩, hgr⟩ := hg
    have el := good_hgt _ _ _ hgl
    have er := good_hgt _ _ _ hgr
    simp only [containsT] at hc
    by_cases heq : nid = i
    · simp only [insRec]
      rw [if_neg (by omega), if_neg (by omega)]
    · rw [if_neg heq] at hc
      by_cases hlt : nid < i
      · rw [if_pos hlt] at hc
        simp only [insRec]
        rw [if_pos hlt, ihl lo (some i) hgl hc, updH_node, el, er, ← hh]
        exact rebal_id l r i h d el er hb
      · rw [if_neg hlt] at hc
        simp only [insRec]
        rw [if_neg hlt, if_pos (by omega), ihr (some i) hi hgr hc, updH_node, el, er, ← hh]
        exact rebal_id l r i h d el er hb

theorem searchTree_extend (heap : List ARec) (rec : ARec) : ∀ (t : ATree),
    offsB heap.length t = true → ∀ rid,
    searchTree (heap ++ [rec]) t rid = searchTree heap t rid := by
  intro t
  induction t with
  | nil => intro _ rid; rfl
  | node l i h d r ihl ihr =>
    intro ho rid
    simp only [offsB_node, Bool.and_eq_true, decide_eq_true_eq] at ho
    simp only [searchTree]
    split_ifs
    · exact List.get?_append ho.1.1
    · exact ihl ho.1.2 rid
    · exact ihr ho.2 rid

end Avl

/-- C6: In every AVLFile state reachable from the fresh file by any sequence of
insert and remove operations, every tree node satisfies
|height(left) - height(right)| <= 1, and the in-order traversal of the tree
yields restaurant ids in strictly ascending order. -/
theorem avl_reachable_balanced_sorted (st : Avl.AState) (h : Avl.ReachA st) :
    Avl.balB st.tree = true ∧
    List.Pairwise (fun a b => a < b) (Avl.inorderIds st.tree) := by
  obtain ⟨hg, _⟩ := Avl.reachA_inv st h
  exact ⟨Avl.good_balB st.tree none none hg, (Avl.good_inorder st.tree none none hg).1⟩

theorem avl_reachable_balanced_sorted_witness :
    Avl.balB (Avl.remove (Avl.insert (Avl.insert (Avl.insert ⟨Avl.ATree.nil, []⟩
        ⟨2, 0, 0, 0, 0, 0, 0, 0⟩) ⟨1, 0, 0, 0, 0, 0, 0, 0⟩) ⟨3, 0, 0, 0, 0, 0, 0, 0⟩) 2).tree
      = true ∧
    List.Pairwise (fun a b => a < b) (Avl.inorderIds (Avl.remove (Avl.insert (Avl.insert
        (Avl.insert ⟨Avl.ATree.nil, []⟩ ⟨2, 0, 0, 0, 0, 0, 0, 0⟩) ⟨1, 0, 0, 0, 0, 0, 0, 0⟩)
        ⟨3, 0, 0, 0, 0, 0, 0, 0⟩) 2).tree) :=
  avl_reachable_balanced_sorted _
    (Avl.ReachA.rem 2 (Avl.ReachA.ins _ (Avl.ReachA.ins _ (Avl.ReachA.ins _ Avl.ReachA.init))))

/-- C10: AVLFile.insert of a record whose restaurant_id already exists in the
tree leaves the node file's tree (nodes, links, heights, root) unchanged, so
every search afterwards returns exactly what it returned before; the only state
change is that the new payload is appended to the payload heap, at an offset
referenced by no tree node. -/
theorem avl_duplicate_insert_frame (st : Avl.AState) (rec : Avl.ARec)
    (hr : Avl.ReachA st) (hc : Avl.containsT st.tree rec.restaurant_id = true) :
    (Avl.insert st rec).tree = st.tree ∧
    (Avl.insert st rec).heap = st.heap ++ [rec] ∧
    (∀ rid, Avl.search (Avl.insert st rec) rid = Avl.search st rid) ∧
    Avl.offsB st.heap.length (Avl.insert st rec).tree = true := by
  obtain ⟨hg, ho⟩ := Avl.reachA_inv st hr
  have hdup : Avl.insRec st.tree rec.restaurant_id st.heap.length = st.tree :=
    Avl.insRec_dup _ _ st.tree none none hg hc
  refine ⟨hdup, rfl, ?_, ?_⟩
  · intro rid
    simp only [Avl.search, Avl.insert]
    rw [hdup]
    exact Avl.searchTree_extend st.heap rec st.tree ho rid
  · simp only [Avl.insert]
    rw [hdup]
    exact ho

theorem avl_duplicate_insert_frame_witness :
    (Avl.insert (Avl.insert ⟨Avl.ATree.nil, []⟩ ⟨7, 1, 1, 0, 0, 0, 0, 0⟩)
        ⟨7, 2, 2, 0, 0, 0, 0, 0⟩).tree
      = (Avl.insert ⟨Avl.ATree.nil, []⟩ ⟨7, 1, 1, 0, 0, 0, 0, 0⟩).tree ∧
    (Avl.insert (Avl.insert ⟨Avl.ATree.nil, []⟩ ⟨7, 1, 1, 0, 0, 0, 0, 0⟩)
        ⟨7, 2, 2, 0, 0, 0, 0, 0⟩).heap
      = (Avl.insert ⟨Avl.ATree.nil, []⟩ ⟨7, 1, 1, 0, 0, 0, 0, 0⟩).heap
          ++ [⟨7, 2, 2, 0, 0, 0, 0, 0⟩] ∧
    (∀ rid, Avl.search (Avl.insert (Avl.insert ⟨Avl.ATree.nil, []⟩ ⟨7, 1, 1, 0, 0, 0, 0, 0⟩)
        ⟨7, 2, 2, 0, 0, 0, 0, 0⟩) rid
      = Avl.search (Avl.insert ⟨Avl.ATree.nil, []⟩ ⟨7, 1, 1, 0, 0, 0, 0, 0⟩) rid) ∧
    Avl.offsB (Avl.insert ⟨Avl.ATree.nil, []⟩ ⟨7, 1, 1, 0, 0, 0, 0, 0⟩).heap.length
        (Avl.insert (Avl.insert ⟨Avl.ATree.nil, []⟩ ⟨7, 1, 1, 0, 0, 0, 0, 0⟩)
          ⟨7, 2, 2, 0, 0, 0, 0, 0⟩).tree
      = true :=
  avl_duplicate_insert_frame _ _ (Avl.ReachA.ins _ Avl.ReachA.init) (by decide)

-- ===================================================================
-- Isam : lemmas
-- ===================================================================

namespace Isam

theorem getLastD_mem {α : Type} (l : List α) (d : α) (h : l ≠ []) : l.getLastD d ∈ l := by
  rw [List.getLastD_eq_getLast?, List.getLast?_eq_getLast l h]
  simp only [Option.getD_some]
  exact List.getLast_mem h

theorem mem_insadd {α : Type} (lt : α → α → Bool) (x y : α) : ∀ (l : List α),
    y ∈ insadd lt x l ↔ y = x ∨ y ∈ l := by
  intro l
  induction l with
  | nil => simp [insadd]
  | cons a l ih =>
    simp only [insadd]
    split_ifs
    · simp only [List.mem_cons, ih]
      tauto
    · simp only [List.mem_cons]

theorem mem_stableSort {α : Type} (lt : α → α → Bool) (y : α) : ∀ (l : List α),
    y ∈ stableSort lt l ↔ y ∈ l := by
  intro l
  induction l with
  | nil => simp [stableSort]
  | cons a l ih =>
    simp only [stableSort, mem_insadd, ih, List.mem_cons]

theorem readPage_set_self (pages : List IPage) (X : Nat) (pg : IPage)
    (hX : X < pages.length) : readPage (writePage pages X pg) X = pg := by
  simp [readPage, writePage, List.getD_eq_getElem?_getD, List.getElem?_set_eq hX]

theorem readPage_set_other (pages : List IPage) (X off : Nat) (pg : IPage)
    (h : X ≠ off) : readPage (writePage pages X pg) off = readPage pages off := by
  simp [readPage, writePage, List.getD_eq_getElem?_getD, List.getElem?_set_ne h]

theorem readPage_append_lt (pages tail : List IPage) (off : Nat)
    (h : off < pages.length) : readPage (pages ++ tail) off = readPage pages off := by
  simp [readPage, List.getD_eq_getElem?_getD, List.getElem?_append_left h]

theorem readPage_concat_self (pages : List IPage) (pg : IPage) :
    readPage (pages ++ [pg]) pages.length = pg := by
  simp [readPage, List.getD_eq_getElem?_getD, List.getElem?_concat_length]

theorem readPage_default (pages : List IPage) (off : Nat)
    (h : pages.length ≤ off) : readPage pages off = ⟨[], none⟩ := by
  simp only [readPage]
  rw [List.getD_eq_default _ _ h]

theorem readPage_eq_getElem (pages : List IPage) (off : Nat) (h : off < pages.length) :
    readPage pages off = pages[off] := by
  simp [readPage, List.getD_eq_getElem?_getD, List.getElem?_eq_getElem h]

theorem mem_overflowSet (pages : List IPage) (x : Nat) :
    x ∈ overflowSet pages ↔ ∃ pg ∈ pages, pg.next_page = some x := by
  simp [overflowSet, List.mem_filterMap]

theorem chainOffsets_ne_nil (pages : List IPage) (fuel off : Nat) :
    chainOffsets pages fuel off ≠ [] := by
  cases fuel with
  | zero => simp [chainOffsets]
  | succ n =>
    simp only [chainOffsets]
    cases (readPage pages off).next_page <;> simp

theorem chain_mem_overflow (pages : List IPage) : ∀ (fuel off x : Nat),
    x ∈ chainOffsets pages fuel off → x = off ∨ x ∈ overflowSet pages := by
  intro fuel
  induction fuel with
  | zero =>
    intro off x hx
    simp [chainOffsets] at hx
    exact Or.inl hx
  | succ n ih =>
    intro off x hx
    simp only [chainOffsets] at hx
    cases hnp : (readPage pages off).next_page with
    | none => rw [hnp] at hx; simp at hx; exact Or.inl hx
    | some nxt =>
      rw [hnp] at hx
      rcases List.mem_cons.mp hx with h1 | h2
      · exact Or.inl h1
      · rcases ih nxt x h2 with h3 | h3
        · subst h3
          refine Or.inr ((mem_overflowSet pages x).mpr ?_)
          by_cases hoff : off < pages.length
          · refine ⟨pages[off], List.getElem_mem hoff, ?_⟩
            rw [← readPage_eq_getElem pages off hoff]
            exact hnp
          · rw [readPage_default pages off (by omega)] at hnp
            exact absurd hnp (by simp)
        · exact Or.inr h3

theorem filterMap_set_next (ps : List IPage) : ∀ (X : Nat) (pg : IPage),
    pg.next_page = (readPage ps X).next_page →
    List.filterMap (fun q => q.next_page) (ps.set X pg)
      = List.filterMap (fun q => q.next_page) ps := by
  induction ps with
  | nil => intro X pg _; rfl
  | cons p ps ih =>
    intro X pg h
    cases X with
    | zero =>
      have h0 : pg.next_page = p.next_page := h
      simp only [List.set_cons_zero, List.filterMap_cons, h0]
    | succ X =>
      simp only [List.set_cons_succ, List.filterMap_cons, ih X pg h]

theorem overflowSet_set (pages : List IPage) (X : Nat) (pg : IPage)
    (h : pg.next_page = (readPage pages X).next_page) :
    overflowSet (writePage pages X pg) = overflowSet pages :=
  filterMap_set_next pages X pg h

theorem baseOffsets_set (pages : List IPage) (X : Nat) (pg : IPage)
    (h : pg.next_page = (readPage pages X).next_page) :
    baseOffsets (writePage pages X pg) = baseOffsets pages := by
  unfold baseOffsets
  rw [overflowSet_set pages X pg h]
  have hlen : (writePage pages X pg).length = pages.length := by
    simp [writePage]
  rw [hlen]

theorem mem_baseOffsets (pages : List IPage) (off : Nat) :
    off ∈ baseOffsets pages ↔ off < pages.length ∧ ¬ off ∈ overflowSet pages := by
  simp [baseOffsets, List.mem_filter, List.mem_range, List.elem_iff]

theorem rebuildEntries_set_records (pages : List IPage) (X : Nat) (rs : List IRec)
    (hX : X ∈ overflowSet pages) :
    rebuildEntries (writePage pages X ⟨rs, (readPage pages X).next_page⟩)
      = rebuildEntries pages := by
  unfold rebuildEntries
  rw [baseOffsets_set pages X ⟨rs, (readPage pages X).next_page⟩ rfl]
  congr 1
  apply List.filterMap_congr
  intro off hoff
  have hne : X ≠ off := by
    intro he
    subst he
    exact ((mem_baseOffsets pages X).mp hoff).2 hX
  rw [readPage_set_other pages X off _ hne]

theorem mem_overflowSet_set_link (x : Nat) : ∀ (pages : List IPage) (X : Nat) (pg : IPage),
    X < pages.length →
    (readPage pages X).next_page = none →
    (x ∈ overflowSet (writePage pages X pg)
      ↔ x ∈ overflowSet pages ∨ pg.next_page = some x) := by
  intro pages
  induction pages with
  | nil => intro X pg hlt _; simp at hlt
  | cons p ps ih =>
    intro X pg hlt hnone
    cases X with
    | zero =>
      have h0 : p.next_page = none := hnone
      show x ∈ overflowSet (pg :: ps) ↔ _
      simp only [overflowSet, List.filterMap_cons, h0]
      cases hp : pg.next_page with
      | none => simp
      | some m =>
        simp only [List.mem_cons, Option.some_inj]
        tauto
    | succ X =>
      have h2 : (readPage ps X).next_page = none := hnone
      have hlt2 : X < ps.length := by simpa using hlt
      show x ∈ overflowSet (p :: ps.set X pg) ↔ _
      simp only [overflowSet, List.filterMap_cons]
      cases hp : p.next_page with
      | none => exact ih X pg hlt2 h2
      | some m =>
        simp only [List.mem_cons]
        rw [show (x ∈ List.filterMap (fun q => q.next_page) (ps.set X pg))
            = (x ∈ overflowSet (writePage ps X pg)) from rfl]
        rw [ih X pg hlt2 h2]
        tauto

theorem contains_eq_of_mem_iff (l m : List Nat) (x : Nat) (h : x ∈ l ↔ x ∈ m) :
    l.contains x = m.contains x := by
  by_cases hx : x ∈ l
  · have h1 : l.contains x = true := List.elem_iff.mpr hx
    have h2 : m.contains x = true := List.elem_iff.mpr (h.mp hx)
    rw [h1, h2]
  · have h1 : l.contains x = false := by
      cases hc : l.contains x
      · rfl
      · exact absurd (List.elem_iff.mp hc) hx
    have h2 : m.contains x = false := by
      cases hc : m.contains x
      · rfl
      · exact absurd (h.mpr (List.elem_iff.mp hc)) hx
    rw [h1, h2]

theorem baseOffsets_alloc (pages : List IPage) (L : Nat) (rec : IRec)
    (hL : L < pages.length)
    (hnone : (readPage pages L).next_page = none) :
    baseOffsets (writePage (pages ++ [⟨[rec], none⟩]) L
        ⟨(readPage pages L).records, some pages.length⟩)
      = baseOffsets pages := by
  have hL2 : L < (pages ++ [(⟨[rec], none⟩ : IPage)]).length := by
    simp only [List.length_append]
    omega
  have hnone2 : (readPage (pages ++ [(⟨[rec], none⟩ : IPage)]) L).next_page = none := by
    rw [readPage_append_lt pages _ L hL]
    exact hnone
  have hovapp : overflowSet (pages ++ [(⟨[rec], none⟩ : IPage)]) = overflowSet pages := by
    unfold overflowSet
    rw [List.filterMap_append]
    simp
  have hlink : ∀ x, x ∈ overflowSet (writePage (pages ++ [⟨[rec], none⟩]) L
        ⟨(readPage pages L).records, some pages.length⟩)
      ↔ x ∈ overflowSet pages ∨ x = pages.length := by
    intro x
    have step := mem_overflowSet_set_link x (pages ++ [⟨[rec], none⟩]) L
      ⟨(readPage pages L).records, some pages.length⟩ hL2 hnone2
    rw [hovapp] at step
    rw [step]
    simp [eq_comm]
  have hlen2 : (writePage (pages ++ [⟨[rec], none⟩]) L
      ⟨(readPage pages L).records, some pages.length⟩).length = pages.length + 1 := by
    simp [writePage]
  unfold baseOffsets
  rw [hlen2, List.range_succ, List.filter_append]
  have hNmem : pages.length ∈ overflowSet (writePage (pages ++ [⟨[rec], none⟩]) L
      ⟨(readPage pages L).records, some pages.length⟩) :=
    (hlink pages.length).mpr (Or.inr rfl)
  rw [show List.filter (fun off => !((overflowSet (writePage (pages ++ [⟨[rec], none⟩]) L
        ⟨(readPage pages L).records, some pages.length⟩)).contains off)) [pages.length]
      = [] by simp [List.filter_cons, hNmem]]
  rw [List.append_nil]
  apply List.filter_congr'
  intro off hoff
  have hofflt : off < pages.length := List.mem_range.mp hoff
  have : (overflowSet (writePage (pages ++ [⟨[rec], none⟩]) L
        ⟨(readPage pages L).records, some pages.length⟩)).contains off
      = (overflowSet pages).contains off := by
    apply contains_eq_of_mem_iff
    rw [hlink off]
    constructor
    · intro hc
      rcases hc with hc | hc
      · exact hc
      · omega
    · intro hc
      exact Or.inl hc
  rw [this]

theorem rebuildEntries_alloc (pages : List IPage) (L : Nat) (rec : IRec)
    (hL : L < pages.length)
    (hnone : (readPage pages L).next_page = none) :
    rebuildEntries (writePage (pages ++ [⟨[rec], none⟩]) L
        ⟨(readPage pages L).records, some pages.length⟩)
      = rebuildEntries pages := by
  unfold rebuildEntries
  rw [baseOffsets_alloc pages L rec hL hnone]
  congr 1
  apply List.filterMap_congr
  intro off hoff
  have hofflt : off < pages.length := ((mem_baseOffsets pages off).mp hoff).1
  have hrec : (readPage (writePage (pages ++ [⟨[rec], none⟩]) L
        ⟨(readPage pages L).records, some pages.length⟩) off).records
      = (readPage pages off).records := by
    by_cases he : L = off
    · subst he
      rw [readPage_set_self _ _ _ (by simp only [List.length_append]; omega)]
    · rw [readPage_set_other _ _ _ _ he, readPage_append_lt _ _ _ hofflt]
  rw [hrec]

end Isam

/-- C2, counterexample: with a full base page whose overflow chain is
0 → 1 → 2, inserting key 88 targets the full base page 0, but the record
is placed in the LAST chain page (page 2) even though the earlier chain
page 1 has capacity; page 1 is left unchanged, refuting "place into the
first chain page with capacity". -/
theorem isam_insert_skips_first_chain_page :
    Isam.findPageOffset (Isam.rebuildEntries Isam.chainPages) 88 = some 0 ∧
    ¬ (Isam.readPage Isam.chainPages 0).records.length < Isam.BLOCK_FACTOR ∧
    (Isam.readPage Isam.chainPages 1).records.length < Isam.BLOCK_FACTOR ∧
    Isam.readPage (Isam.isamInsert Isam.chainPages ⟨88, 5⟩) 1
      = Isam.readPage Isam.chainPages 1 ∧
    (⟨88, 5⟩ : Isam.IRec) ∈ (Isam.readPage (Isam.isamInsert Isam.chainPages ⟨88, 5⟩) 2).records := by
  decide

/-- C2 (amended): when `ISAM.insert` targets a full base page it examines
only the LAST page of the overflow chain: every other page of the file is
untouched; the record is added (in sorted position) to that last page if
it has capacity, else exactly one new overflow page holding the record is
appended and linked from it; in both cases the leaf entries the
multi-level index is rebuilt from are unchanged, so the rebuilt static
index equals the index rebuilt from the pre-insert data. -/
theorem isam_insert_full_base_amended (pages : List Isam.IPage) (rec : Isam.IRec) (b L : Nat)
    (hb : Isam.findPageOffset (Isam.rebuildEntries pages) rec.key = some b)
    (hfull : ¬ (Isam.readPage pages b).records.length < Isam.BLOCK_FACTOR)
    (hL : (Isam.chainOffsets pages pages.length b).getLastD b = L)
    (hLlen : L < pages.length)
    (hLnone : (Isam.readPage pages L).next_page = none) :
    (∀ off, off < pages.length → off ≠ L →
        Isam.readPage (Isam.isamInsert pages rec) off = Isam.readPage pages off) ∧
    (if (Isam.readPage pages L).records.length < Isam.BLOCK_FACTOR then
        (Isam.isamInsert pages rec).length = pages.length ∧
        (Isam.readPage (Isam.isamInsert pages rec) L).records
          = Isam.sortRecs ((Isam.readPage pages L).records ++ [rec]) ∧
        (Isam.readPage (Isam.isamInsert pages rec) L).next_page = none
      else
        (Isam.isamInsert pages rec).length = pages.length + 1 ∧
        Isam.readPage (Isam.isamInsert pages rec) pages.length = ⟨[rec], none⟩ ∧
        (Isam.readPage (Isam.isamInsert pages rec) L).records
          = (Isam.readPage pages L).records ∧
        (Isam.readPage (Isam.isamInsert pages rec) L).next_page = some pages.length) ∧
    Isam.rebuildEntries (Isam.isamInsert pages rec) = Isam.rebuildEntries pages := by
  have hins : Isam.isamInsert pages rec
      = if (Isam.readPage pages L).records.length < Isam.BLOCK_FACTOR then
          Isam.writePage pages L ⟨Isam.sortRecs ((Isam.readPage pages L).records ++ [rec]),
            (Isam.readPage pages L).next_page⟩
        else
          Isam.writePage (pages ++ [⟨[rec], none⟩]) L
            ⟨(Isam.readPage pages L).records, some pages.length⟩ := by
    simp only [Isam.isamInsert, hb]
    rw [if_neg hfull, hL]
  by_cases hcap : (Isam.readPage pages L).records.length < Isam.BLOCK_FACTOR
  · rw [hins, if_pos hcap, if_pos hcap]
    refine ⟨?_, ?_, ?_⟩
    · intro off holt hne
      exact Isam.readPage_set_other pages L off _ (fun he => hne he.symm)
    · refine ⟨by simp [Isam.writePage], ?_, ?_⟩
      · rw [Isam.readPage_set_self pages L _ hLlen]
      · rw [Isam.readPage_set_self pages L _ hLlen]
        exact hLnone
    · have hmem : L ∈ Isam.chainOffsets pages pages.length b := by
        have h1 := Isam.getLastD_mem (Isam.chainOffsets pages pages.length b) b
          (Isam.chainOffsets_ne_nil pages _ b)
        rwa [hL] at h1
      have hLov : L ∈ Isam.overflowSet pages := by
        rcases Isam.chain_mem_overflow pages _ b L hmem with he | hov
        · subst he
          exact absurd hcap hfull
        · exact hov
      exact Isam.rebuildEntries_set_records pages L _ hLov
  · rw [hins, if_neg hcap, if_neg hcap]
    refine ⟨?_, ?_, ?_⟩
    · intro off holt hne
      rw [Isam.readPage_set_other _ L off _ (fun he => hne he.symm),
        Isam.readPage_append_lt _ _ _ holt]
    · refine ⟨by simp [Isam.writePage], ?_, ?_, ?_⟩
      · rw [Isam.readPage_set_other _ L pages.length _ (by omega),
          Isam.readPage_concat_self]
      · rw [Isam.readPage_set_self _ L _ (by simp only [List.length_append]; omega)]
      · rw [Isam.readPage_set_self _ L _ (by simp only [List.length_append]; omega)]
    · exact Isam.rebuildEntries_alloc pages L rec hLlen hLnone

theorem isam_insert_full_base_amended_witness :
    (∀ off, off < Isam.chainPages.length → off ≠ 2 →
        Isam.readPage (Isam.isamInsert Isam.chainPages ⟨88, 5⟩) off
          = Isam.readPage Isam.chainPages off) ∧
    (if (Isam.readPage Isam.chainPages 2).records.length < Isam.BLOCK_FACTOR then
        (Isam.isamInsert Isam.chainPages ⟨88, 5⟩).length = Isam.chainPages.length ∧
        (Isam.readPage (Isam.isamInsert Isam.chainPages ⟨88, 5⟩) 2).records
          = Isam.sortRecs ((Isam.readPage Isam.chainPages 2).records ++ [⟨88, 5⟩]) ∧
        (Isam.readPage (Isam.isamInsert Isam.chainPages ⟨88, 5⟩) 2).next_page = none
      else
        (Isam.isamInsert Isam.chainPages ⟨88, 5⟩).length = Isam.chainPages.length + 1 ∧
        Isam.readPage (Isam.isamInsert Isam.chainPages ⟨88, 5⟩) Isam.chainPages.length
          = ⟨[⟨88, 5⟩], none⟩ ∧
        (Isam.readPage (Isam.isamInsert Isam.chainPages ⟨88, 5⟩) 2).records
          = (Isam.readPage Isam.chainPages 2).records ∧
        (Isam.readPage (Isam.isamInsert Isam.chainPages ⟨88, 5⟩) 2).next_page
          = some Isam.chainPages.length) ∧
    Isam.rebuildEntries (Isam.isamInsert Isam.chainPages ⟨88, 5⟩)
      = Isam.rebuildEntries Isam.chainPages :=
  isam_insert_full_base_amended Isam.chainPages ⟨88, 5⟩ 0 2 (by decide) (by decide)
    (by decide) (by decide) (by decide)

/-- C3, counterexample: inserting a record whose key 5 already exists in
the targeted base page (which has capacity) stores a SECOND copy next to
the old one instead of overwriting it: the page afterwards holds both
records with key 5. -/
theorem isam_duplicate_two_copies :
    (Isam.readPage (Isam.isamInsert [⟨[⟨5, 0⟩], none⟩] ⟨5, 1⟩) 0).records
      = [⟨5, 0⟩, ⟨5, 1⟩] := by
  decide

/-- C3 (amended): `ISAM.insert` never overwrites: on the base-page path
every record previously stored in the page (in particular one with the
same key as the new record) is still stored afterwards, the new record is
added alongside it, the file size in pages is unchanged and every other
page is untouched. -/
theorem isam_insert_base_no_overwrite (pages : List Isam.IPage) (rec : Isam.IRec) (b : Nat)
    (hb : Isam.findPageOffset (Isam.rebuildEntries pages) rec.key = some b)
    (hcap : (Isam.readPage pages b).records.length < Isam.BLOCK_FACTOR)
    (r0 : Isam.IRec) (hr0 : r0 ∈ (Isam.readPage pages b).records) :
    r0 ∈ (Isam.readPage (Isam.isamInsert pages rec) b).records ∧
    rec ∈ (Isam.readPage (Isam.isamInsert pages rec) b).records ∧
    (Isam.isamInsert pages rec).length = pages.length ∧
    ∀ off, off ≠ b → Isam.readPage (Isam.isamInsert pages rec) off
      = Isam.readPage pages off := by
  have hblen : b < pages.length := by
    by_contra hno
    rw [Isam.readPage_default pages b (by omega)] at hr0
    exact absurd hr0 (by simp)
  have hins : Isam.isamInsert pages rec
      = Isam.writePage pages b ⟨Isam.sortRecs ((Isam.readPage pages b).records ++ [rec]),
          (Isam.readPage pages b).next_page⟩ := by
    simp only [Isam.isamInsert, hb]
    rw [if_pos hcap]
  rw [hins]
  refine ⟨?_, ?_, by simp [Isam.writePage], ?_⟩
  · rw [Isam.readPage_set_self pages b _ hblen]
    exact (Isam.mem_stableSort _ r0 _).mpr (List.mem_append.mpr (Or.inl hr0))
  · rw [Isam.readPage_set_self pages b _ hblen]
    exact (Isam.mem_stableSort _ rec _).mpr (List.mem_append.mpr (Or.inr (by simp)))
  · intro off hne
    exact Isam.readPage_set_other pages b off _ (fun he => hne he.symm)

theorem isam_insert_base_no_overwrite_witness :
    (⟨5, 0⟩ : Isam.IRec) ∈
      (Isam.readPage (Isam.isamInsert [⟨[⟨5, 0⟩], none⟩] ⟨5, 1⟩) 0).records ∧
    (⟨5, 1⟩ : Isam.IRec) ∈
      (Isam.readPage (Isam.isamInsert [⟨[⟨5, 0⟩], none⟩] ⟨5, 1⟩) 0).records ∧
    (Isam.isamInsert [⟨[⟨5, 0⟩], none⟩] ⟨5, 1⟩).length
      = ([⟨[⟨5, 0⟩], none⟩] : List Isam.IPage).length ∧
    ∀ off, off ≠ 0 → Isam.readPage (Isam.isamInsert [⟨[⟨5, 0⟩], none⟩] ⟨5, 1⟩) off
      = Isam.readPage [⟨[⟨5, 0⟩], none⟩] off :=
  isam_insert_base_no_overwrite [⟨[⟨5, 0⟩], none⟩] ⟨5, 1⟩ 0 (by decide) (by decide)
    ⟨5, 0⟩ (by decide)

-- ===================================================================
-- Mgr : theorems
-- ===================================================================

namespace Mgr

theorem contains_false_of_not_mem {l : List String} {x : String} (h : ¬ x ∈ l) :
    l.contains x = false := by
  cases hc : l.contains x
  · rfl
  · exact absurd (List.elem_iff.mp hc) h

end Mgr

/-- C1: For every record whose restaurant_id is already present in at
least one of the B+Tree, ExtHash or AVL indexes (presence is decided by
`_id_exists`, which probes BPlus, then ExtHash, then Avl),
`IndexManager.insert_full` rejects the insert with DuplicateId and
mutates no index: the post-state equals the pre-state, so search by id,
by name, by id range and spatial search all return exactly what they
returned before the rejected insert. -/
theorem mgr_insert_full_duplicate_rejected (hf : Nat → Nat) (cap fuel : Nat)
    (st : Mgr.MState) (rec : Mgr.MRec)
    (hdup : (BPlus.searchT st.bpt rec.restaurant_id).isSome = true ∨
            (EH.search hf st.hash rec.restaurant_id).isSome = true ∨
            (Avl.search st.avl rec.restaurant_id).isSome = true) :
    Mgr.insert_full hf cap fuel st rec = (Mgr.InsertOutcome.DuplicateId, st) ∧
    (∀ rid, Mgr.searchById hf (Mgr.insert_full hf cap fuel st rec).2 rid
      = Mgr.searchById hf st rid) ∧
    (∀ name, Mgr.searchByName (Mgr.insert_full hf cap fuel st rec).2 name
      = Mgr.searchByName st name) ∧
    (∀ lo hi, Mgr.searchRangeId (Mgr.insert_full hf cap fuel st rec).2 lo hi
      = Mgr.searchRangeId st lo hi) ∧
    (∀ near lon lat rad,
      Mgr.searchNear near (Mgr.insert_full hf cap fuel st rec).2 lon lat rad
        = Mgr.searchNear near st lon lat rad) := by
  have hid : Mgr.idExists hf st rec.restaurant_id = true := by
    unfold Mgr.idExists
    split_ifs with h1 h2 h3
    · rfl
    · rfl
    · rfl
    · rcases hdup with h | h | h
      · exact absurd h h1
      · exact absurd h h2
      · exact absurd h h3
  have hins : Mgr.insert_full hf cap fuel st rec = (Mgr.InsertOutcome.DuplicateId, st) := by
    unfold Mgr.insert_full
    rw [if_pos hid]
  refine ⟨hins, ?_, ?_, ?_, ?_⟩
  · intro rid
    rw [hins]
  · intro name
    rw [hins]
  · intro lo hi
    rw [hins]
  · intro near lon lat rad
    rw [hins]

theorem mgr_insert_full_duplicate_rejected_witness :
    Mgr.insert_full (fun n => n) 4 8
        ⟨BPlus.Tree.leaf [], EH.initState,
          Avl.insert ⟨Avl.ATree.nil, []⟩ ⟨9999991, 1, 2, 0, 0, 0, 0, 0⟩, [], ⟨[], 0⟩⟩
        ⟨9999991, 3, 4, 0, 0, 0, 0, 0⟩
      = (Mgr.InsertOutcome.DuplicateId,
        ⟨BPlus.Tree.leaf [], EH.initState,
          Avl.insert ⟨Avl.ATree.nil, []⟩ ⟨9999991, 1, 2, 0, 0, 0, 0, 0⟩, [], ⟨[], 0⟩⟩) ∧
    (∀ rid, Mgr.searchById (fun n => n)
        (Mgr.insert_full (fun n => n) 4 8
          ⟨BPlus.Tree.leaf [], EH.initState,
            Avl.insert ⟨Avl.ATree.nil, []⟩ ⟨9999991, 1, 2, 0, 0, 0, 0, 0⟩, [], ⟨[], 0⟩⟩
          ⟨9999991, 3, 4, 0, 0, 0, 0, 0⟩).2 rid
      = Mgr.searchById (fun n => n)
          ⟨BPlus.Tree.leaf [], EH.initState,
            Avl.insert ⟨Avl.ATree.nil, []⟩ ⟨9999991, 1, 2, 0, 0, 0, 0, 0⟩, [], ⟨[], 0⟩⟩ rid) ∧
    (∀ name, Mgr.searchByName
        (Mgr.insert_full (fun n => n) 4 8
          ⟨BPlus.Tree.leaf [], EH.initState,
            Avl.insert ⟨Avl.ATree.nil, []⟩ ⟨9999991, 1, 2, 0, 0, 0, 0, 0⟩, [], ⟨[], 0⟩⟩
          ⟨9999991, 3, 4, 0, 0, 0, 0, 0⟩).2 name
      = Mgr.searchByName
          ⟨BPlus.Tree.leaf [], EH.initState,
            Avl.insert ⟨Avl.ATree.nil, []⟩ ⟨9999991, 1, 2, 0, 0, 0, 0, 0⟩, [], ⟨[], 0⟩⟩ name) ∧
    (∀ lo hi, Mgr.searchRangeId
        (Mgr.insert_full (fun n => n) 4 8
          ⟨BPlus.Tree.leaf [], EH.initState,
            Avl.insert ⟨Avl.ATree.nil, []⟩ ⟨9999991, 1, 2, 0, 0, 0, 0, 0⟩, [], ⟨[], 0⟩⟩
          ⟨9999991, 3, 4, 0, 0, 0, 0, 0⟩).2 lo hi
      = Mgr.searchRangeId
          ⟨BPlus.Tree.leaf [], EH.initState,
            Avl.insert ⟨Avl.ATree.nil, []⟩ ⟨9999991, 1, 2, 0, 0, 0, 0, 0⟩, [], ⟨[], 0⟩⟩ lo hi) ∧
    (∀ near lon lat rad, Mgr.searchNear near
        (Mgr.insert_full (fun n => n) 4 8
          ⟨BPlus.Tree.leaf [], EH.initState,
            Avl.insert ⟨Avl.ATree.nil, []⟩ ⟨9999991, 1, 2, 0, 0, 0, 0, 0⟩, [], ⟨[], 0⟩⟩
          ⟨9999991, 3, 4, 0, 0, 0, 0, 0⟩).2 lon lat rad
      = Mgr.searchNear near
          ⟨BPlus.Tree.leaf [], EH.initState,
            Avl.insert ⟨Avl.ATree.nil, []⟩ ⟨9999991, 1, 2, 0, 0, 0, 0, 0⟩, [], ⟨[], 0⟩⟩
          lon lat rad) :=
  mgr_insert_full_duplicate_rejected (fun n => n) 4 8
    ⟨BPlus.Tree.leaf [], EH.initState,
      Avl.insert ⟨Avl.ATree.nil, []⟩ ⟨9999991, 1, 2, 0, 0, 0, 0, 0⟩, [], ⟨[], 0⟩⟩
    ⟨9999991, 3, 4, 0, 0, 0, 0, 0⟩ (Or.inr (Or.inr (by decide)))

/-- C8, counterexample: a forced BTREE search with attribute "rating"
(not an admissible attribute for BTREE under the claimed matrix, which
allows only restaurant_id) and a numeric value is not rejected:
force_search performs no attribute validation for BTREE and returns a
success envelope instead of a status=error one. -/
theorem mgr_force_search_btree_unvalidated :
    ("rating" : String) ≠ "restaurant_id" ∧
    (Mgr.force_search (fun n => n) (fun _ _ _ => []) (fun _ _ => []) (fun _ _ _ => [])
        Mgr.emptySt "BTREE" ⟨"rating", "=", some 4, "4", none, none⟩).status
      = "success" := by
  refine ⟨by decide, ?_⟩
  simp [Mgr.force_search, Mgr.emptySt, BPlus.searchT, Mgr.searchById,
    Avl.search, Avl.searchTree, EH.search, EH.initState, EH.readBucket]

/-- C8 (amended): the compatibility validations of force_search hold for
AVL (numeric fields), ISAM (textual fields) and RTREE (spatial fields):
any other attribute yields a status=error envelope with no results,
without raising; the HASH validation instead accepts exactly the
attributes containing an id-field name as a substring and rejects the
rest the same way; BTREE performs no attribute validation at all:
whenever the value parses as an integer, the BTREE branch returns a
status=success envelope for every attribute. -/
theorem mgr_force_search_validation_amended (hf : Nat → Nat)
    (cmp : String → String → Int → List Mgr.Hit)
    (byName : String → String → List Mgr.Hit)
    (near : Int → Int → Int → List Mgr.Hit)
    (st : Mgr.MState) (cond : Mgr.Cond) :
    (¬ cond.attr ∈ Mgr.numeric_fields →
      Mgr.force_search hf cmp byName near st "AVL" cond = ⟨"error", "AVL", []⟩) ∧
    (¬ cond.attr ∈ Mgr.textual_fields →
      Mgr.force_search hf cmp byName near st "ISAM" cond = ⟨"error", "ISAM", []⟩) ∧
    ((∀ f ∈ Mgr.id_fields, Mgr.containsSub cond.attr f = false) →
      Mgr.force_search hf cmp byName near st "HASH" cond = ⟨"error", "HASH", []⟩) ∧
    (¬ cond.attr ∈ Mgr.spatial_fields →
      Mgr.force_search hf cmp byName near st "RTREE" cond = ⟨"error", "RTREE", []⟩) ∧
    (∀ v, cond.value = some v →
      (Mgr.force_search hf cmp byName near st "BTREE" cond).status = "success") := by
  refine ⟨?_, ?_, ?_, ?_, ?_⟩
  · intro h
    have hc := Mgr.contains_false_of_not_mem h
    simp [Mgr.force_search, hc]
    exact fun hmem => absurd hmem h
  · intro h
    have hc := Mgr.contains_false_of_not_mem h
    simp [Mgr.force_search, hc]
    exact h
  · intro h
    have h1 := h "id" (by simp [Mgr.id_fields])
    have h2 := h "restaurant_id" (by simp [Mgr.id_fields])
    simp [Mgr.force_search, Mgr.id_fields, h1, h2]
  · intro h
    have hc := Mgr.contains_false_of_not_mem h
    simp [Mgr.force_search, hc]
    exact fun hmem => absurd hmem h
  · intro v hv
    simp only [Mgr.force_search, hv]
    cases hs : BPlus.searchT st.bpt v.toNat <;> simp [hs]

theorem mgr_force_search_validation_amended_witness :
    Mgr.force_search (fun n => n) (fun _ _ _ => []) (fun _ _ => []) (fun _ _ _ => [])
        Mgr.emptySt "HASH" ⟨"city", "=", none, "Makati City", none, none⟩
      = ⟨"error", "HASH", []⟩ :=
  (mgr_force_search_validation_amended (fun n => n) (fun _ _ _ => []) (fun _ _ => [])
      (fun _ _ _ => []) Mgr.emptySt ⟨"city", "=", none, "Makati City", none, none⟩).2.2.1
    (by decide)
